import Mathlib

/-!
Verification of the classical-cipher cryptanalysis backend.

This file gives a shallow embedding, in Lean 4, of the parts of the Python
source that the specification's claims are about:

* character canonicalization (uppercase, keep only A-Z), shared by all
  components (`app/services/...`, pattern `"".join(c for c in s.upper() if c in ALPHABET)`);
* the Affine, Vigenère, Columnar, Atbash, ROT13 and Beaufort cipher engines
  (`app/services/engines/...`);
* the multi-language candidate scorer (`app/services/pipeline/scorer.py`);
* the candidate filter (`app/services/pipeline/filter.py`);
* the classifier's probability pipeline and cipher rankings
  (`app/services/pipeline/classifier.py`);
* the orchestrator's tier runner and final scoring/filtering stage
  (`app/services/pipeline/orchestrator.py`);
* a spec-modelled substitution hill climber (the file
  `app/services/optimization/hill_climbing.py` is not part of the sources;
  only its caller `simple_substitution.py` is).

Strings are modelled as `List Char`; Python floats are modelled as `ℚ`
(`WithTop ℚ` where the source uses `float("inf")`).  Python's `%` on
integers is non-negative for a positive modulus, which matches `Int.emod`.
-/

/-! ## Characters and canonicalization -/

/-- The engines' alphabet constant `string.ascii_uppercase`. -/
def ALPHABET : List Char := "ABCDEFGHIJKLMNOPQRSTUVWXYZ".toList

/-- Source: `c in ALPHABET` for a character: ASCII codes 65..90. -/
def isUpperAZ (c : Char) : Bool := 65 ≤ c.toNat && c.toNat ≤ 90

/-- An ASCII lowercase letter: codes 97..122. -/
def isLowerAZ (c : Char) : Bool := 97 ≤ c.toNat && c.toNat ≤ 122

/-- Python `str.upper()` on one character (restricted to ASCII, which is all
the alphabet logic of the source distinguishes). -/
def upperChar (c : Char) : Char :=
  if isLowerAZ c then Char.ofNat (c.toNat - 32) else c

/-- Canonicalization used throughout the pipeline:
`"".join(c for c in s.upper() if c in ALPHABET)`. -/
def canonicalize (s : List Char) : List Char :=
  (s.map upperChar).filter isUpperAZ

/-- Source: `ALPHABET.index(c)` for an uppercase letter. -/
def letterIdx (c : Char) : Nat := c.toNat - 65

/-- Source: `ALPHABET[k]` for an index `k < 26`. -/
def idxLetter (k : Nat) : Char := ALPHABET.getD k 'A'

/-! ## Affine engine (`engines/monoalphabetic/affine.py`)

`AffineEngine._encrypt` uppercases the input and maps each alphabet letter
`x` to `ALPHABET[(a*x + b) % 26]`, passing other characters through.
`AffineEngine._decrypt` maps letter `y` to `ALPHABET[(a_inv*(y - b)) % 26]`.
`_mod_inverse` computes the inverse with the extended Euclidean algorithm,
returning `None` when `gcd(a, m) ≠ 1`. -/

/-- Source: `VALID_A`: the `a` values coprime with 26 accepted by the engine. -/
def VALID_A : List Nat := [1, 3, 5, 7, 9, 11, 15, 17, 19, 21, 23, 25]

/-- The inner `extended_gcd(a, b)` of `AffineEngine._mod_inverse`, with an
explicit fuel argument so that the definition is structurally recursive
(the first argument strictly decreases, so `fuel = a` always suffices). -/
def extendedGcdAux : Nat → Nat → Nat → Int × Int × Int
  | _, 0, b => ((b : Int), 0, 1)
  | 0, _+1, b => ((b : Int), 0, 1)
  | fuel+1, a+1, b =>
    let r := extendedGcdAux fuel (b % (a+1)) (a+1)
    (r.1, r.2.2 - ((b / (a+1)) : Int) * r.2.1, r.2.1)

/-- Source: `extended_gcd(a, b)`: returns `(gcd, x, y)`. -/
def extendedGcd (a b : Nat) : Int × Int × Int := extendedGcdAux a a b

/-- Source: `AffineEngine._mod_inverse(a, m)`: `None` when `gcd(a, m) ≠ 1`, else
`(x % m + m) % m` for the Bézout coefficient `x` of `a % m`. -/
def modInverse (a m : Nat) : Option Int :=
  if Nat.gcd a m ≠ 1 then none
  else
    let r := extendedGcd (a % m) m
    some ((r.2.1 % (m : Int) + (m : Int)) % (m : Int))

/-- Source: `AffineEngine._encrypt` on one character. -/
def affineEncryptChar (a b : Nat) (c : Char) : Char :=
  if isUpperAZ c then idxLetter ((a * letterIdx c + b) % 26) else c

/-- Source: `AffineEngine._encrypt`: uppercase, then map letters, keep the rest. -/
def affineEncrypt (p : List Char) (a b : Nat) : List Char :=
  (p.map upperChar).map (affineEncryptChar a b)

/-- Source: `AffineEngine._decrypt` on one character (`a_inv` as computed by
`_mod_inverse`). -/
def affineDecryptChar (aInv : Int) (b : Nat) (c : Char) : Char :=
  if isUpperAZ c then idxLetter ((aInv * ((letterIdx c : Int) - (b : Int))) % 26).toNat else c

/-- Source: `AffineEngine._decrypt`. -/
def affineDecryptRaw (ct : List Char) (aInv : Int) (b : Nat) : List Char :=
  (ct.map upperChar).map (affineDecryptChar aInv b)

/-- Source: `AffineEngine.decrypt_with_key`: computes `a_inv` with `_mod_inverse`
and raises (here: `none`) when it does not exist. -/
def affineDecrypt (ct : List Char) (a b : Nat) : Option (List Char) :=
  (modInverse a 26).map (fun aInv => affineDecryptRaw ct aInv b)

/-! ## Vigenère engine (`engines/polyalphabetic/vigenere.py`)

`VigenereEngine._encrypt` uppercases plaintext and key; it walks the text
keeping a key index `key_idx` that advances only on alphabet letters, and
maps letter `p_i` to `ALPHABET[(p_i + shift) % 26]` with
`shift = ALPHABET.index(key[key_idx % len(key)])`; other characters pass
through.  `_decrypt` is identical with `(c_i - shift) % 26`. -/

/-- The shift taken from the (already uppercased) key at key index `ki`. -/
def vigShift (key : List Char) (ki : Nat) : Nat :=
  letterIdx (key.getD (ki % key.length) 'A')

/-- The encryption loop of `VigenereEngine._encrypt` (text already
uppercased, `ki` is `key_idx`). -/
def vigEncGo (key : List Char) : Nat → List Char → List Char
  | _, [] => []
  | ki, c :: cs =>
    if isUpperAZ c then
      idxLetter ((letterIdx c + vigShift key ki) % 26) :: vigEncGo key (ki + 1) cs
    else c :: vigEncGo key ki cs

/-- Source: `VigenereEngine._encrypt`. -/
def vigenereEncrypt (p key : List Char) : List Char :=
  vigEncGo (key.map upperChar) 0 (p.map upperChar)

/-- The decryption loop of `VigenereEngine._decrypt`. -/
def vigDecGo (key : List Char) : Nat → List Char → List Char
  | _, [] => []
  | ki, c :: cs =>
    if isUpperAZ c then
      idxLetter ((((letterIdx c : Int) - (vigShift key ki : Int)) % 26).toNat)
        :: vigDecGo key (ki + 1) cs
    else c :: vigDecGo key ki cs

/-- Source: `VigenereEngine._decrypt`. -/
def vigenereDecrypt (ct key : List Char) : List Char :=
  vigDecGo (key.map upperChar) 0 (ct.map upperChar)

/-- Source: `VigenereEngine.validate_key`: non-empty and all letters after
uppercasing. -/
def vigenereValidKey (key : List Char) : Bool :=
  key.length > 0 && (key.map upperChar).all isUpperAZ

/-! ## Columnar transposition engine (`engines/transposition/columnar.py`)

`ColumnarEngine._encrypt_with_order` uppercases the plaintext, pads it with
`'X'` until its length is a multiple of the key length, writes it row-wise
into a grid, and reads the columns in the order given by the 1-indexed
`order` vector (`order.index(col_idx)` finds the column whose ordinal is
`col_idx`).  `_decrypt_with_order` recomputes the column lengths (the
columns whose ordinal is at most `n % L` are long), slices the ciphertext
into columns in reading order, and reads the grid row-wise. -/

/-- Number of `'X'` characters the `while len(plaintext) % key_length != 0`
padding loop appends (closed form, for `L ≥ 1`). -/
def columnarPadLen (L n : Nat) : Nat := (L - n % L) % L

/-- Source: `ColumnarEngine._encrypt_with_order`.  `grid[row][col_pos]` is
`padded[row * L + col_pos]`. -/
def columnarEncryptWithOrder (p0 : List Char) (order : List Nat) : List Char :=
  let p := p0.map upperChar
  let L := order.length
  let padded := p ++ List.replicate (columnarPadLen L p.length) 'X'
  let numRows := padded.length / L
  (List.range L).flatMap (fun k =>
    (List.range numRows).map (fun r => padded.getD (r * L + order.indexOf (k + 1)) 'X'))

/-- The `col_lengths` list of `_decrypt_with_order`: a column is long
(`num_rows`) when its ordinal is at most `num_long_cols`. -/
def columnarColLens (order : List Nat) (numRows numLong : Nat) : List Nat :=
  order.map (fun o => if o ≤ numLong then numRows else numRows - 1)

/-- The column-slicing loop of `_decrypt_with_order`: for each reading
ordinal (`k + 1` for `k ∈ range L`) find the column position, cut the next
`col_lengths[col_pos]` characters, and advance `idx`. -/
def columnarReadColsAux (ct : List Char) (order : List Nat) (lens : List Nat) :
    List Nat → Nat → List (Nat × List Char)
  | [], _ => []
  | k :: ks, idx =>
    let colPos := order.indexOf (k + 1)
    let len := lens.getD colPos 0
    (colPos, (ct.drop idx).take len) :: columnarReadColsAux ct order lens ks (idx + len)

/-- Source: `ColumnarEngine._decrypt_with_order`.  The final double loop reads the
grid row by row, skipping `row ≥ len(columns[col])`. -/
def columnarDecryptWithOrder (ct0 : List Char) (order : List Nat) : List Char :=
  let ct := ct0.map upperChar
  let L := order.length
  let n := ct.length
  let numRows := (n + L - 1) / L
  let numLong := if n % L = 0 then L else n % L
  let lens := columnarColLens order numRows numLong
  let cols := columnarReadColsAux ct order lens (List.range L) 0
  (List.range numRows).flatMap (fun r =>
    (List.range L).filterMap (fun i => ((cols.lookup i).getD [])[r]?))

/-! ## Atbash, ROT13 and Beaufort (`atbash.py`, `rot13.py`, `beaufort.py`)

`AtbashEngine._transform` maps letter index `i` to `REVERSED[i]` where
`REVERSED` is the reversed alphabet.  `Rot13Engine._transform` maps index
`i` to `ALPHABET[(i + 13) % 26]`.  `BeaufortEngine._transform` walks the
text with a key index advancing on letters and maps letter `c` to
`ALPHABET[(k - c) % 26]`.  Each engine's `encrypt` is its `_transform`. -/

/-- Source: `AtbashEngine.REVERSED`: `string.ascii_uppercase[::-1]`. -/
def REVERSED : List Char := ALPHABET.reverse

/-- Source: `AtbashEngine._transform` on one character. -/
def atbashChar (c : Char) : Char :=
  if isUpperAZ c then REVERSED.getD (letterIdx c) 'A' else c

/-- Source: `AtbashEngine._transform` (also the engine's `encrypt` and `decrypt`). -/
def atbashTransform (t : List Char) : List Char :=
  (t.map upperChar).map atbashChar

/-- Source: `Rot13Engine._transform` on one character (`SHIFT = 13`). -/
def rot13Char (c : Char) : Char :=
  if isUpperAZ c then idxLetter ((letterIdx c + 13) % 26) else c

/-- Source: `Rot13Engine._transform`. -/
def rot13Transform (t : List Char) : List Char :=
  (t.map upperChar).map rot13Char

/-- The loop of `BeaufortEngine._transform` (text and key already
uppercased, `ki` is `key_idx`); the letter map is `(k - c) % 26`. -/
def beaufortGo (key : List Char) : Nat → List Char → List Char
  | _, [] => []
  | ki, c :: cs =>
    if isUpperAZ c then
      idxLetter ((((vigShift key ki) : Int) - (letterIdx c : Int)) % 26).toNat
        :: beaufortGo key (ki + 1) cs
    else c :: beaufortGo key ki cs

/-- Source: `BeaufortEngine._transform` (used by both `encrypt` and `decrypt`). -/
def beaufortTransform (t key : List Char) : List Char :=
  beaufortGo (key.map upperChar) 0 (t.map upperChar)

/-- Source: `BeaufortEngine.validate_key`: non-empty and all letters after
uppercasing. -/
def beaufortValidKey (key : List Char) : Bool :=
  key.length > 0 && (key.map upperChar).all isUpperAZ

/-! ## Multi-language candidate scorer (`pipeline/scorer.py`)

`CandidateScorer.score_candidate` canonicalizes the plaintext; on empty
text it returns a sentinel candidate (`best_language="unknown"`,
`best_score=inf`, empty `all_scores`, `confidence=0`).  Otherwise it scores
the text against every language (dict insertion order), combining
`chi_squared - bigram*50 - word*100` (lower is better), tracking the
strict-minimum language, and maps the best chi-squared to a confidence
step. -/

/-- Source: `CandidateScorer.LANGUAGE_FREQUENCIES` (letter percentages), in the
source's dict insertion order. -/
def LANGUAGE_FREQUENCIES : List (String × List (Char × ℚ)) := [
  ("english", [('E', 12.70), ('T', 9.06), ('A', 8.17), ('O', 7.51), ('I', 6.97), ('N', 6.75),
    ('S', 6.33), ('H', 6.09), ('R', 5.99), ('D', 4.25), ('L', 4.03), ('C', 2.78), ('U', 2.76),
    ('M', 2.41), ('W', 2.36), ('F', 2.23), ('G', 2.02), ('Y', 1.97), ('P', 1.93), ('B', 1.29),
    ('V', 0.98), ('K', 0.77), ('J', 0.15), ('X', 0.15), ('Q', 0.10), ('Z', 0.07)]),
  ("french", [('E', 14.72), ('A', 7.64), ('S', 7.95), ('I', 7.53), ('T', 7.24), ('N', 7.10),
    ('R', 6.55), ('U', 6.31), ('L', 5.46), ('O', 5.27), ('D', 3.67), ('C', 3.18), ('M', 2.97),
    ('P', 2.52), ('V', 1.83), ('Q', 1.36), ('F', 1.07), ('B', 0.90), ('G', 0.87), ('H', 0.74),
    ('J', 0.55), ('X', 0.39), ('Y', 0.31), ('Z', 0.14), ('W', 0.05), ('K', 0.05)]),
  ("german", [('E', 16.40), ('N', 9.78), ('I', 7.55), ('S', 7.27), ('R', 7.00), ('A', 6.51),
    ('T', 6.15), ('D', 5.08), ('H', 4.76), ('U', 4.35), ('L', 3.44), ('C', 3.06), ('G', 3.01),
    ('M', 2.53), ('O', 2.51), ('B', 1.89), ('W', 1.89), ('F', 1.66), ('K', 1.21), ('Z', 1.13),
    ('P', 0.79), ('V', 0.67), ('J', 0.27), ('Y', 0.04), ('X', 0.03), ('Q', 0.02)]),
  ("spanish", [('E', 13.68), ('A', 12.53), ('O', 8.68), ('S', 7.98), ('R', 6.87), ('N', 6.71),
    ('I', 6.25), ('D', 5.86), ('L', 4.97), ('C', 4.68), ('T', 4.63), ('U', 3.93), ('M', 3.16),
    ('P', 2.51), ('B', 1.42), ('G', 1.01), ('V', 0.90), ('Y', 0.90), ('Q', 0.88), ('H', 0.70),
    ('F', 0.69), ('Z', 0.52), ('J', 0.44), ('X', 0.22), ('W', 0.02), ('K', 0.01)]),
  ("italian", [('E', 11.79), ('A', 11.74), ('I', 11.28), ('O', 9.83), ('N', 6.88),
    ('T', 5.62), ('R', 6.37), ('L', 6.51), ('S', 4.98), ('C', 4.50), ('D', 3.73), ('U', 3.01),
    ('P', 3.05), ('M', 2.51), ('G', 1.64), ('V', 2.10), ('B', 0.92), ('F', 0.95), ('H', 1.54),
    ('Z', 0.49), ('Q', 0.51), ('Y', 0.02), ('W', 0.02), ('X', 0.02), ('K', 0.01), ('J', 0.01)]),
  ("portuguese", [('E', 12.57), ('A', 14.63), ('O', 10.73), ('S', 7.81), ('R', 6.53),
    ('I', 6.18), ('N', 5.05), ('D', 4.99), ('M', 4.74), ('U', 4.63), ('T', 4.34), ('C', 3.88),
    ('L', 2.78), ('P', 2.52), ('V', 1.67), ('G', 1.30), ('Q', 1.20), ('B', 1.04), ('F', 1.02),
    ('H', 1.28), ('Z', 0.47), ('J', 0.40), ('X', 0.21), ('Y', 0.01), ('W', 0.01), ('K', 0.02)])]

/-- Source: `CandidateScorer.COMMON_WORDS` (per-language common-word sets; the
source writes Python set literals, modelled as the literal item lists). -/
def COMMON_WORDS : List (String × List String) := [
  ("english", ["THE", "AND", "FOR", "ARE", "BUT", "NOT", "YOU", "ALL", "CAN", "HAD", "HER",
    "WAS", "ONE", "OUR", "OUT", "HAS", "HIS", "HOW", "ITS", "MAY", "NEW", "NOW", "OLD", "SEE",
    "TWO", "WAY", "WHO", "BOY", "DID", "GET", "HIM", "LET", "PUT", "SAY", "SHE", "TOO", "USE",
    "THAT", "WITH", "HAVE", "THIS", "WILL", "YOUR", "FROM", "THEY", "BEEN", "HAVE", "MANY",
    "SOME", "THEM", "THEN", "THESE", "WOULD", "MAKE", "LIKE", "INTO", "TIME", "VERY", "WHEN",
    "COME", "COULD", "MORE", "THAN", "FIRST", "WATER", "OTHER", "PEOPLE"]),
  ("french", ["LE", "LA", "LES", "DE", "DES", "DU", "UN", "UNE", "ET", "EST", "EN", "QUE",
    "QUI", "IL", "ELLE", "ON", "NE", "PAS", "PLUS", "DANS", "CE", "CETTE", "CES", "POUR",
    "PAR", "SUR", "AVEC", "SANS", "SOUS", "MAIS", "OU", "AU", "AUX", "SON", "SA", "SES",
    "MON", "MA", "MES", "TON", "TA", "TES", "NOTRE", "VOTRE", "LEUR", "NOUS", "VOUS", "ILS",
    "ELLES", "SONT", "ETRE", "AVOIR", "FAIT", "FAIRE", "PEUT", "TOUT", "TOUS", "TOUTE",
    "BIEN", "COMME", "AUSSI", "AUTRE", "TRES", "TEMPS", "MONDE", "HOMME", "FEMME", "JOUR"]),
  ("german", ["DER", "DIE", "DAS", "UND", "IST", "VON", "ZU", "DEN", "MIT", "SICH", "DES",
    "AUF", "FUR", "NICHT", "ALS", "AUCH", "ES", "AN", "WIR", "HAT", "AUS", "ER", "AM", "EINE",
    "EINER", "EINEM", "EINEN", "WIE", "NACH", "IM", "SIND", "NUR", "NOCH", "KANN", "BEI",
    "ABER", "WENN", "MAN", "MEHR", "ODER", "WAR", "SEIN", "SCHON", "SO", "WIRD", "SEHR",
    "DIESE", "NUN", "UNTER", "MUSS", "HABEN", "HATTE", "IHRE", "SEIN", "WERDEN", "WURDE"]),
  ("spanish", ["DE", "LA", "QUE", "EL", "EN", "LOS", "DEL", "SE", "LAS", "POR", "UN", "PARA",
    "CON", "NO", "UNA", "SU", "AL", "ES", "LO", "COMO", "MAS", "PERO", "SUS", "LE", "YA",
    "HA", "ERA", "SIDO", "ESTE", "ESTA", "DESDE", "SIN", "ENTRE", "CUANDO", "TODO", "SER",
    "SON", "DOS", "TIENE", "HASTA", "HACE", "PUEDE", "TODOS", "ASI", "NOS", "MUY", "BIEN",
    "TIEMPO", "VIDA", "MUNDO"]),
  ("italian", ["DI", "CHE", "IL", "LA", "UN", "UNA", "PER", "NON", "CON", "DEL", "DA", "SONO",
    "DELLA", "ANCHE", "PIU", "HA", "ERA", "LORO", "SUO", "SUE", "MA", "COME", "IO", "TU",
    "LUI", "LEI", "NOI", "VOI", "ESSERE", "AVERE", "QUESTO", "QUELLO", "TUTTO", "TUTTI",
    "BENE", "SEMPRE", "DOVE", "QUANDO", "PRIMA", "DOPO", "ANCORA", "MOLTO"]),
  ("portuguese", ["DE", "QUE", "NAO", "EM", "PARA", "COM", "UMA", "OS", "NO", "SE", "NA",
    "POR", "MAIS", "AS", "DOS", "COMO", "MAS", "AO", "ELE", "DAS", "SEM", "MESMO", "AOS",
    "TEM", "SEUS", "QUEM", "NAS", "ME", "ESSE", "ELES", "VOCE", "ESSA", "NUM", "NEM", "SUAS",
    "MEU", "MINHA", "NUMA", "PELOS", "ELAS", "ERA", "SER", "QUANDO", "MUITO"])]

/-- Source: `CandidateScorer.COMMON_BIGRAMS`, each bigram as its two characters. -/
def COMMON_BIGRAMS : List (String × List (Char × Char)) := [
  ("english", [('T', 'H'), ('H', 'E'), ('I', 'N'), ('E', 'R'), ('A', 'N'), ('R', 'E'),
    ('O', 'N'), ('A', 'T'), ('E', 'N'), ('N', 'D'), ('T', 'I'), ('E', 'S'), ('O', 'R'),
    ('T', 'E'), ('O', 'F'), ('E', 'D'), ('I', 'S'), ('I', 'T'), ('A', 'L'), ('A', 'R'),
    ('S', 'T'), ('T', 'O'), ('N', 'T'), ('N', 'G'), ('S', 'E'), ('H', 'A'), ('A', 'S'),
    ('O', 'U'), ('I', 'O'), ('L', 'E')]),
  ("french", [('E', 'S'), ('L', 'E'), ('D', 'E'), ('E', 'N'), ('R', 'E'), ('N', 'T'),
    ('O', 'N'), ('E', 'R'), ('O', 'U'), ('A', 'N'), ('T', 'E'), ('A', 'I'), ('S', 'E'),
    ('I', 'T'), ('E', 'T'), ('M', 'E'), ('I', 'S'), ('Q', 'U'), ('L', 'A'), ('N', 'E'),
    ('L', 'I'), ('E', 'L'), ('U', 'R'), ('E', 'U'), ('C', 'E'), ('T', 'I'), ('E', 'M'),
    ('P', 'A'), ('R', 'I'), ('N', 'S')]),
  ("german", [('E', 'N'), ('E', 'R'), ('C', 'H'), ('D', 'E'), ('E', 'I'), ('N', 'D'),
    ('T', 'E'), ('I', 'N'), ('I', 'E'), ('G', 'E'), ('E', 'S'), ('N', 'E'), ('U', 'N'),
    ('S', 'T'), ('R', 'E'), ('H', 'E'), ('A', 'N'), ('B', 'E'), ('S', 'E'), ('N', 'G'),
    ('A', 'U'), ('S', 'S'), ('I', 'C'), ('S', 'C'), ('D', 'I'), ('L', 'E'), ('L', 'I'),
    ('V', 'E'), ('D', 'A'), ('R', 'I')]),
  ("spanish", [('D', 'E'), ('E', 'N'), ('E', 'S'), ('E', 'L'), ('L', 'A'), ('O', 'S'),
    ('U', 'E'), ('A', 'S'), ('E', 'R'), ('R', 'A'), ('A', 'N'), ('A', 'L'), ('A', 'D'),
    ('O', 'N'), ('A', 'R'), ('R', 'E'), ('S', 'E'), ('N', 'T'), ('O', 'R'), ('D', 'O'),
    ('C', 'O'), ('T', 'A'), ('C', 'I'), ('T', 'E'), ('I', 'O'), ('I', 'A'), ('N', 'D'),
    ('Q', 'U'), ('N', 'O'), ('S', 'T')]),
  ("italian", [('R', 'E'), ('E', 'R'), ('O', 'N'), ('D', 'I'), ('T', 'O'), ('E', 'N'),
    ('T', 'A'), ('T', 'E'), ('A', 'N'), ('A', 'T'), ('N', 'E'), ('N', 'O'), ('R', 'A'),
    ('L', 'A'), ('T', 'I'), ('D', 'E'), ('C', 'O'), ('L', 'E'), ('N', 'T'), ('I', 'O'),
    ('R', 'I'), ('I', 'N'), ('A', 'L'), ('A', 'R'), ('S', 'E'), ('S', 'O'), ('S', 'I'),
    ('E', 'L'), ('C', 'H'), ('Z', 'I')]),
  ("portuguese", [('D', 'E'), ('O', 'S'), ('A', 'S'), ('E', 'S'), ('D', 'O'), ('D', 'A'),
    ('E', 'M'), ('E', 'N'), ('N', 'O'), ('R', 'A'), ('E', 'R'), ('N', 'T'), ('A', 'N'),
    ('A', 'D'), ('A', 'O'), ('O', 'R'), ('A', 'R'), ('S', 'E'), ('Q', 'U'), ('T', 'E'),
    ('C', 'O'), ('T', 'A'), ('A', 'L'), ('R', 'E'), ('S', 'T'), ('A', 'M'), ('I', 'A'),
    ('N', 'A'), ('C', 'A'), ('I', 'S')])]

/-- The scorer's language keys in dict insertion order. -/
def SCORER_LANGS : List String :=
  ["english", "french", "german", "spanish", "italian", "portuguese"]

/-- Source: `LANGUAGE_FREQUENCIES.get(language, LANGUAGE_FREQUENCIES["english"])`. -/
def freqTableOf (lang : String) : List (Char × ℚ) :=
  (LANGUAGE_FREQUENCIES.lookup lang).getD ((LANGUAGE_FREQUENCIES.lookup "english").getD [])

/-- Source: `freqs.get(letter, 0.1)`. -/
def freqOf (lang : String) (c : Char) : ℚ :=
  ((freqTableOf lang).lookup c).getD (1/10)

/-- Source: `Counter(text).get(letter, 0)`. -/
def countChar (text : List Char) (c : Char) : Nat :=
  (text.filter (fun x => x = c)).length

/-- Source: `CandidateScorer._chi_squared` for non-empty text (its
`n == 0 → float("inf")` branch is unreachable from `score_candidate`,
which returns early on empty canonicalized text). -/
def chiSquared (text : List Char) (lang : String) : ℚ :=
  let n : ℚ := text.length
  (ALPHABET.map (fun letter =>
    let observed : ℚ := countChar text letter
    let expected : ℚ := freqOf lang letter / 100 * n
    if 0 < expected then (observed - expected)^2 / expected else 0)).sum

/-- Source: `COMMON_BIGRAMS.get(language, COMMON_BIGRAMS["english"])`. -/
def bigramTableOf (lang : String) : List (Char × Char) :=
  (COMMON_BIGRAMS.lookup lang).getD ((COMMON_BIGRAMS.lookup "english").getD [])

/-- Source: `CandidateScorer._bigram_score`: fraction of adjacent pairs that are
common bigrams of the language; `0.0` when fewer than two characters. -/
def bigramScore (text : List Char) (lang : String) : ℚ :=
  if text.length < 2 then 0
  else
    let common := bigramTableOf lang
    let total := text.length - 1
    let hits := ((List.range total).filter
      (fun i => decide ((text.getD i ' ', text.getD (i + 1) ' ') ∈ common))).length
    if 0 < total then (hits : ℚ) / (total : ℚ) else 0

/-- Source: `COMMON_WORDS.get(language, COMMON_WORDS["english"])`; a Python set, so
duplicates in the literal collapse (`dedup`). -/
def wordTableOf (lang : String) : List String :=
  ((COMMON_WORDS.lookup lang).getD ((COMMON_WORDS.lookup "english").getD [])).dedup

/-- Source: `CandidateScorer._word_score`: count the common words of length ≥ 3
occurring as substrings, divided by the size of the word set. -/
def wordScore (text : List Char) (lang : String) : ℚ :=
  let words := wordTableOf lang
  let found := (words.filter (fun w => 3 ≤ w.length && decide (w.toList <:+: text))).length
  if words.length ≠ 0 then (found : ℚ) / (words.length : ℚ) else 0

/-- One entry of `score_candidate`'s per-language loop (the `LanguageScore`
dataclass). -/
structure LanguageScore where
  language : String
  chi_squared : ℚ
  bigram_score : ℚ
  word_score : ℚ
  combined_score : ℚ
deriving Repr, DecidableEq

/-- The body of `score_candidate`'s language loop. -/
def scoreOne (text : List Char) (lang : String) : LanguageScore :=
  let chi := chiSquared text lang
  let bigram := bigramScore text lang
  let word := wordScore text lang
  { language := lang, chi_squared := chi, bigram_score := bigram,
    word_score := word, combined_score := chi - bigram * 50 - word * 100 }

/-- The `ScoredCandidate` dataclass.  `best_score` is `WithTop ℚ` because
the empty-text branch sets it to `float("inf")`. -/
structure ScoredCandidate where
  plaintext : List Char
  cipher_type : String
  key : String
  best_language : String
  best_score : WithTop ℚ
  all_scores : List (String × LanguageScore)
  confidence : ℚ
  method : String
deriving Repr, DecidableEq

/-- Source: `CandidateScorer.score_candidate`. -/
def scoreCandidate (plaintext : List Char) (cipher_type key method : String) : ScoredCandidate :=
  let text := canonicalize plaintext
  if text = [] then
    { plaintext := plaintext, cipher_type := cipher_type, key := key,
      best_language := "unknown", best_score := ⊤, all_scores := [],
      confidence := 0, method := method }
  else
    let all_scores := SCORER_LANGS.map (fun lang => (lang, scoreOne text lang))
    let best := all_scores.foldl
      (fun acc (entry : String × LanguageScore) =>
        if ((entry.2.combined_score : ℚ) : WithTop ℚ) < acc.2
        then (entry.1, ((entry.2.combined_score : ℚ) : WithTop ℚ)) else acc)
      ("english", (⊤ : WithTop ℚ))
    let best_chi := ((all_scores.lookup best.1).map (fun s => s.chi_squared)).getD 0
    let confidence : ℚ :=
      if best_chi < 40 then 95/100
      else if best_chi < 60 then 85/100
      else if best_chi < 100 then 7/10
      else if best_chi < 150 then 1/2
      else if best_chi < 250 then 3/10
      else 1/10
    { plaintext := plaintext, cipher_type := cipher_type, key := key,
      best_language := best.1, best_score := best.2, all_scores := all_scores,
      confidence := confidence, method := method }

/-! ## Candidate filter (`pipeline/filter.py`)

`CandidateFilter.filter` walks the candidates; each is canonicalized and
hard-rejected when the text is empty, the vowel ratio is below
`MIN_VOWEL_RATIO = 0.05`, a letter repeats `MAX_CONSECUTIVE_SAME + 1 = 5`
times consecutively, the chi-squared exceeds `MAX_CHI_SQUARED = 300` for
every language in `all_scores`, or an impossible pattern (a consonant run
longer than 10) occurs.  Survivors are sorted by `best_score` and the first
`max_results` are returned.  `quick_reject` applies only the first three
checks.  (The `filter_reasons` counters of the `FilterResult` dataclass are
not modelled; no claim concerns them.) -/

/-- Source: `CandidateFilter.VOWELS`. -/
def VOWELS : List Char := ['A', 'E', 'I', 'O', 'U']

/-- Source: `Counter`-style vowel count. -/
def vowelCount (text : List Char) : Nat :=
  (text.filter (fun c => decide (c ∈ VOWELS))).length

/-- The scanning loop of `CandidateFilter._has_consecutive_same`:
`prev`/`count` walk, returning `True` as soon as `count` reaches
`min_count`. -/
def hasConsecutiveSameGo (minCount : Nat) : Char → Nat → List Char → Bool
  | _, _, [] => false
  | prev, count, c :: cs =>
    if c = prev then
      if minCount ≤ count + 1 then true else hasConsecutiveSameGo minCount prev (count + 1) cs
    else hasConsecutiveSameGo minCount c 1 cs

/-- Source: `CandidateFilter._has_consecutive_same`. -/
def hasConsecutiveSame (text : List Char) (minCount : Nat) : Bool :=
  if text.length < minCount then false
  else
    match text with
    | [] => false
    | c :: cs => hasConsecutiveSameGo minCount c 1 cs

/-- Source: `char in consonants` where `consonants = set(ALPHABET) - VOWELS`. -/
def isConsonant (c : Char) : Bool :=
  decide (c ∈ ALPHABET) && !(decide (c ∈ VOWELS))

/-- The consonant-run loop of `CandidateFilter._has_impossible_patterns`:
return `True` when a run exceeds 10. -/
def hasImpossiblePatternsGo : Nat → List Char → Bool
  | _, [] => false
  | run, c :: cs =>
    if isConsonant c then
      if 10 < run + 1 then true else hasImpossiblePatternsGo (run + 1) cs
    else hasImpossiblePatternsGo 0 cs

/-- Source: `CandidateFilter._has_impossible_patterns`. -/
def hasImpossiblePatterns (text : List Char) : Bool :=
  hasImpossiblePatternsGo 0 text

/-- The per-candidate hard-rejection checks of `CandidateFilter.filter`,
in source order (`True` = the candidate is kept). -/
def filterPass (cand : ScoredCandidate) : Bool :=
  if canonicalize cand.plaintext = [] then false
  else if ((vowelCount (canonicalize cand.plaintext) : ℚ)
      / ((canonicalize cand.plaintext).length : ℚ)) < 5/100 then false
  else if hasConsecutiveSame (canonicalize cand.plaintext) (4 + 1) then false
  else if cand.all_scores.all (fun s => decide (300 < s.2.chi_squared)) then false
  else if hasImpossiblePatterns (canonicalize cand.plaintext) then false
  else true

/-- The `FilterResult` dataclass (without the `filter_reasons` counters). -/
structure FilterResult where
  passed : List ScoredCandidate
  filtered_out : Nat

/-- Source: `CandidateFilter.filter`: keep the passing candidates, sort them by
`best_score` ascending (Python's stable sort), take the first
`max_results`. -/
def filterCandidates (candidates : List ScoredCandidate) (max_results : Nat) : FilterResult :=
  let passed := candidates.filter filterPass
  { passed := (passed.mergeSort (fun a b => decide (a.best_score ≤ b.best_score))).take max_results,
    filtered_out := candidates.length - passed.length }

/-- Source: `CandidateFilter.quick_reject`: the first three checks only. -/
def quickReject (plaintext : List Char) : Bool :=
  if canonicalize plaintext = [] then true
  else if ((vowelCount (canonicalize plaintext) : ℚ)
      / ((canonicalize plaintext).length : ℚ)) < 5/100 then true
  else if hasConsecutiveSame (canonicalize plaintext) (4 + 1) then true
  else false

/-! ## Orchestrator (`pipeline/orchestrator.py`)

`DecryptionOrchestrator._run_tier` loops over the tier's engines; each
`attempt_decrypt` call either raises — caught by `except Exception:
continue`, which silently discards that engine and moves on — or
contributes its candidates in order.  An engine invocation is modelled as
an `Except` outcome.  After the tiers, `orchestrate` scores every
accumulated raw candidate, filters with `max_results=10`, and returns the
passed list with `passed[0]` as `best_candidate`.  The classifier's output
(including its `reasoning` log, the only reasoning in the result) is
computed before the tiers run and is returned unchanged. -/

/-- Source: `DecryptionCandidate` (raw, pre-scoring). -/
structure RawCandidate where
  plaintext : List Char
  cipher_type : String
  key : String
  method : String

/-- Source: `DecryptionOrchestrator._run_tier`: failing engines are skipped
(`except Exception: continue`), the others contribute their candidates. -/
def runTier : List (Except String (List RawCandidate)) → List RawCandidate
  | [] => []
  | (Except.ok cs) :: rest => cs ++ runTier rest
  | (Except.error _) :: rest => runTier rest

/-- The tail of `DecryptionOrchestrator.orchestrate` (lines 202–225):
score all raw candidates, filter with `max_results=10`, return the passed
list, its head as best candidate, and the counters. -/
structure OrchestrationCore where
  best_candidate : Option ScoredCandidate
  candidates : List ScoredCandidate
  total_candidates_generated : Nat
  candidates_after_filter : Nat
deriving DecidableEq

/-- Scoring/filter/result stage of `orchestrate`; the raw candidate list
accumulated by the tiers is its input. -/
def orchestrateFinal (raw : List RawCandidate) : OrchestrationCore :=
  let scored := raw.map (fun c => scoreCandidate c.plaintext c.cipher_type c.key c.method)
  let fr := filterCandidates scored 10
  { best_candidate := fr.passed.head?,
    candidates := fr.passed,
    total_candidates_generated := raw.length,
    candidates_after_filter := fr.passed.length }

/-- Source: `orchestrate` with the classifier result abstracted to its reasoning
log: the reasoning is produced before the tiers and returned unchanged. -/
def orchestrateWith (reasoning : List String)
    (outcomes : List (Except String (List RawCandidate))) :
    List String × OrchestrationCore :=
  (reasoning, orchestrateFinal (runTier outcomes))

/-- Ascending order of a candidate list by `best_score`, as a boolean. -/
def sortedByBestScore : List ScoredCandidate → Bool
  | [] => true
  | [_] => true
  | a :: b :: rest => decide (a.best_score ≤ b.best_score) && sortedByBestScore (b :: rest)

/-! ## Classifier (`pipeline/classifier.py`)

`CipherClassifier.classify` canonicalizes the text; below 20 letters it
returns the flat prior `(0.33, 0.33, 0.33)` with confidence `0.1`.
Otherwise it starts from an IoC-bucket prior and applies four additive
nudge blocks (frequency-curve shape, bigram correlation, Kasiski,
entropy), then normalizes the three probabilities by their sum.  The IoC
is embedded (it is exact rational arithmetic); the remaining statistical
features — the best Spearman frequency-curve correlation (`scipy`), the
best bigram correlation, the entropy ratio (`log2`), and the Kasiski key
lengths — enter only as branch conditions and returned lists, so they are
taken as parameters and every theorem quantifies over all their values. -/

/-- Source: `CipherClassifier._calculate_ioc` (summing over the 26 letters is the
same as over `Counter` keys: absent letters contribute `0·(0−1) = 0`). -/
def calcIoc (text : List Char) : ℚ :=
  if text.length ≤ 1 then 0
  else
    let numerator :=
      (ALPHABET.map (fun c => (countChar text c : ℚ) * ((countChar text c : ℚ) - 1))).sum
    let denominator : ℚ := (text.length : ℚ) * ((text.length : ℚ) - 1)
    if 0 < denominator then numerator / denominator else 0

/-- The IoC-bucket prior of `classify` as `(mono, poly, trans)`. -/
def classifyPrior (ioc : ℚ) : ℚ × ℚ × ℚ :=
  if 60/1000 ≤ ioc then (7/10, 1/10, 6/10)
  else if 50/1000 ≤ ioc then (3/10, 6/10, 2/10)
  else if 42/1000 ≤ ioc then (1/10, 8/10, 1/10)
  else (1/20, 7/10, 1/20)

/-- The frequency-curve block: `r > 0.85` boosts mono and trans,
`0.6 < r ≤ 0.85` boosts mono, otherwise poly. -/
def classifyFreqStep (bestCorr : ℚ) (s : ℚ × ℚ × ℚ) : ℚ × ℚ × ℚ :=
  if 85/100 < bestCorr then (min (9/10) (s.1 + 2/10), s.2.1, min (9/10) (s.2.2 + 1/10))
  else if 6/10 < bestCorr then (min (9/10) (s.1 + 15/100), s.2.1, s.2.2)
  else (s.1, min (9/10) (s.2.1 + 2/10), s.2.2)

/-- The bigram-correlation block: `> 0.7` boosts trans, `< 0.3` lowers
trans with a floor of `0.05`. -/
def classifyBigramStep (bigramCorr : ℚ) (s : ℚ × ℚ × ℚ) : ℚ × ℚ × ℚ :=
  if 7/10 < bigramCorr then (s.1, s.2.1, min (95/100) (s.2.2 + 2/10))
  else if bigramCorr < 3/10 then (s.1, s.2.1, max (1/20) (s.2.2 - 2/10))
  else s

/-- The Kasiski block: repeated-pattern key lengths boost poly and lower
mono with a floor of `0.05`. -/
def classifyKasiskiStep (hasKasiski : Bool) (s : ℚ × ℚ × ℚ) : ℚ × ℚ × ℚ :=
  if hasKasiski then (max (1/20) (s.1 - 15/100), min (95/100) (s.2.1 + 2/10), s.2.2)
  else s

/-- The entropy block: ratio `> 0.95` boosts poly, `< 0.85` boosts mono
and trans. -/
def classifyEntropyStep (entropyRatio : ℚ) (s : ℚ × ℚ × ℚ) : ℚ × ℚ × ℚ :=
  if 95/100 < entropyRatio then (s.1, min (9/10) (s.2.1 + 1/10), s.2.2)
  else if entropyRatio < 85/100 then (min (9/10) (s.1 + 1/10), s.2.1, min (9/10) (s.2.2 + 1/10))
  else s

/-- Source: `CipherClassifier._rank_monoalphabetic_ciphers`: always `caesar`
first; `simple_substitution` and `affine` appended when the best
frequency-curve correlation is strictly below `0.8`; then `atbash`,
`rot13`. -/
def rankMonoalphabeticCiphers (ioc : ℚ) (freqMatch : String × ℚ) : List String :=
  ["caesar"]
    ++ (if freqMatch.2 < 8/10 then ["simple_substitution", "affine"] else [])
    ++ ["atbash", "rot13"]

/-- Source: `CipherClassifier._rank_polyalphabetic_ciphers`: `vigenere`,
`beaufort`, with `autokey` inserted at position 1 when no Kasiski key
length was found. -/
def rankPolyalphabeticCiphers (ioc : ℚ) (keyLengths : List Nat) : List String :=
  if keyLengths = [] then ["vigenere", "autokey", "beaufort"] else ["vigenere", "beaufort"]

/-- Source: `CipherClassifier._rank_transposition_ciphers`. -/
def rankTranspositionCiphers (ioc : ℚ) (bigramCorr : ℚ) : List String :=
  ["rail_fence", "columnar"]

/-- Source: `CipherFamilyProbabilities` (the reasoning strings, which interpolate
floats, are not modelled; no claim concerns their content). -/
structure ClassifyResult where
  monoalphabetic : ℚ
  polyalphabetic : ℚ
  transposition : ℚ
  likely_monoalphabetic : List String
  likely_polyalphabetic : List String
  likely_transposition : List String
  estimated_key_lengths : List Nat
  classification_confidence : ℚ
deriving DecidableEq

/-- The long-text branch of `classify` (text already canonicalized,
`≥ 20` letters). -/
def classifyLong (text : List Char) (freqMatch : String × ℚ) (bigramCorr entropyRatio : ℚ)
    (kasiskiKeyLengths : List Nat) : ClassifyResult :=
  let ioc := calcIoc text
  let s := classifyEntropyStep entropyRatio
    (classifyKasiskiStep (!kasiskiKeyLengths.isEmpty)
      (classifyBigramStep bigramCorr (classifyFreqStep freqMatch.2 (classifyPrior ioc))))
  let total := s.1 + s.2.1 + s.2.2
  let mono := s.1 / total
  let poly := s.2.1 / total
  let trans := s.2.2 / total
  let sorted := [mono, poly, trans].mergeSort (fun x y => decide (x ≤ y))
  { monoalphabetic := mono, polyalphabetic := poly, transposition := trans,
    likely_monoalphabetic := rankMonoalphabeticCiphers ioc freqMatch,
    likely_polyalphabetic := rankPolyalphabeticCiphers ioc kasiskiKeyLengths,
    likely_transposition := rankTranspositionCiphers ioc bigramCorr,
    estimated_key_lengths := kasiskiKeyLengths.take 5,
    classification_confidence := max mono (max poly trans) - sorted.getD 1 0 }

/-- Source: `CipherClassifier.classify`. -/
def classify (ciphertext : List Char) (freqMatch : String × ℚ) (bigramCorr entropyRatio : ℚ)
    (kasiskiKeyLengths : List Nat) : ClassifyResult :=
  let text := canonicalize ciphertext
  if text.length < 20 then
    { monoalphabetic := 33/100, polyalphabetic := 33/100, transposition := 33/100,
      likely_monoalphabetic := [], likely_polyalphabetic := [], likely_transposition := [],
      estimated_key_lengths := [], classification_confidence := 1/10 }
  else classifyLong text freqMatch bigramCorr entropyRatio kasiskiKeyLengths

/-- All three pre-normalization probabilities stay at or above the `0.05`
floor. -/
def probLB (s : ℚ × ℚ × ℚ) : Prop := 1/20 ≤ s.1 ∧ 1/20 ≤ s.2.1 ∧ 1/20 ≤ s.2.2

/-! ## Simple Substitution engine (`engines/monoalphabetic/simple_substitution.py`)

`SimpleSubstitutionEngine.attempt_decrypt` builds a `SubstitutionHillClimber`
with an injected fitness function, runs `optimize()`, and returns `[]` when
`result.best_key is None`, otherwise exactly one candidate built from the
best key.  The engine's `_decrypt` (inverse substitution) is embedded from
the source; the hill climber itself is modelled from the spec (below). -/

/-- Source: `SimpleSubstitutionEngine._decrypt`: inverse mapping `key[i] → ALPHABET[i]`
(the source builds `inverse` left to right, so for a permutation key the
index of `c` in `key` is its unique preimage), other characters pass
through. -/
def substDecrypt (ct : List Char) (key : List Char) : List Char :=
  (ct.map upperChar).map (fun c => if decide (c ∈ key) then idxLetter (key.indexOf c) else c)

/-- Plaintext-frequency order E,T,A,O,I,N,… used for the initial key. -/
def ETAOIN : List Char := "ETAOINSHRDLCUMWFGYPBVKJXQZ".toList

/-- Modelled from the spec: the ciphertext's letters in descending
frequency order (`app/services/optimization/hill_climbing.py`, class
`SubstitutionHillClimber`, is absent from the sources; spec §4.4, Simple
Substitution, step 1).  Ties keep alphabet order (stable sort). -/
def freqOrderLetters (ct : List Char) : List Char :=
  ALPHABET.mergeSort (fun a b => decide (countChar ct b ≤ countChar ct a))

/-- Modelled from the spec: the starting permutation maps the
plaintext-frequency order onto the ciphertext's letter-frequency order —
the cipher letter of rank `j` decrypts to `ETAOIN[j]`, i.e.
`key[index of ETAOIN[j]] = freq[j]`. -/
def initialKey (ct : List Char) : List Char :=
  (List.range 26).map (fun i => (freqOrderLetters ct).getD (ETAOIN.indexOf (idxLetter i)) 'A')

/-- Modelled from the spec: one hill-climbing step — swap two positions
and accept when the fitness of the decryption strictly improves, else
revert (spec §4.4, step 2).  The pseudo-random position pair is an input
(the climber's PRNG stream is abstracted as a list of proposals). -/
def hillClimbStep (fitness : List Char → ℚ) (ct : List Char) (key : List Char)
    (pr : Nat × Nat) : List Char :=
  let cand := (key.set pr.1 (key.getD pr.2 'A')).set pr.2 (key.getD pr.1 'A')
  if fitness (substDecrypt ct key) < fitness (substDecrypt ct cand) then cand else key

/-- Modelled from the spec: one restart climbs from the frequency-derived
initial key through at most `iters` proposals (the no-improvement early
stop only truncates the proposal stream and is not modelled). -/
def hillClimbRestart (fitness : List Char → ℚ) (ct : List Char)
    (proposals : List (Nat × Nat)) (iters : Nat) : List Char :=
  (proposals.take iters).foldl (hillClimbStep fitness ct) (initialKey ct)

/-- Modelled from the spec: `SubstitutionHillClimber.optimize()` — run the
restarts and keep the best key across them (`None` only when there are no
restarts at all). -/
def hillClimbOptimize (fitness : List Char → ℚ) (ct : List Char) (iters restarts : Nat)
    (streams : List (List (Nat × Nat))) : Option (List Char) :=
  ((List.range restarts).map (fun r => hillClimbRestart fitness ct (streams.getD r []) iters)).foldl
    (fun best k =>
      match best with
      | none => some k
      | some b => if fitness (substDecrypt ct b) < fitness (substDecrypt ct k) then some k else some b)
    none

/-- Source: `LanguageScorer("english").chi_squared_score`
(`optimization/scoring.py`): canonicalize, `inf` on empty text, else the
chi-squared sum (its English table carries the same 26 values as the
pipeline scorer's, so `chiSquared · "english"` is reused). -/
def lsChiSquaredScore (text : List Char) : WithTop ℚ :=
  if (canonicalize text).length = 0 then ⊤
  else ((chiSquared (canonicalize text) "english" : ℚ) : WithTop ℚ)

/-- Source: `max(0.0, min(1.0, 1.0 - score / 500))` on a possibly infinite score
(`1 - inf/500 = -inf`, clamped to 0). -/
def confFromScore : WithTop ℚ → ℚ
  | ⊤ => 0
  | (s : ℚ) => max 0 (min 1 (1 - s / 500))

/-- The engine-side `PlaintextCandidate` for this engine. -/
structure SSCandidate where
  plaintext : List Char
  score : WithTop ℚ
  confidence : ℚ
  cipher_type : String
  key : List Char
  method : String

/-- Source: `SimpleSubstitutionEngine.attempt_decrypt`: `[]` when the climber
returns no key, else exactly one hill-climbing candidate. -/
def ssAttemptDecrypt (ct : List Char) (fitness : List Char → ℚ) (iters restarts : Nat)
    (streams : List (List (Nat × Nat))) : List SSCandidate :=
  match hillClimbOptimize fitness ct iters restarts streams with
  | none => []
  | some key =>
    [{ plaintext := substDecrypt ct key,
       score := lsChiSquaredScore (substDecrypt ct key),
       confidence := confFromScore (lsChiSquaredScore (substDecrypt ct key)),
       cipher_type := "simple_substitution",
       key := key,
       method := "hill_climbing" }]

/-! ## Theorems -/

theorem upperChar_of_isUpperAZ {c : Char} (h : isUpperAZ c = true) : upperChar c = c := by
  unfold upperChar
  unfold isUpperAZ at h
  have h2 : isLowerAZ c = false := by
    unfold isLowerAZ
    simp only [Bool.and_eq_true, decide_eq_true_eq] at h
    simp only [Bool.and_eq_false_iff, decide_eq_false_iff_not]
    left
    omega
  simp [h2]

theorem canonicalize_of_all_upper {p : List Char} (h : ∀ c ∈ p, isUpperAZ c = true) :
    canonicalize p = p := by
  unfold canonicalize
  induction p with
  | nil => rfl
  | cons c cs ih =>
    have hc := h c (List.mem_cons_self c cs)
    have hcs : ∀ x ∈ cs, isUpperAZ x = true := fun x hx => h x (List.mem_cons_of_mem c hx)
    simp only [List.map_cons, List.filter_cons, upperChar_of_isUpperAZ hc, hc, if_pos]
    rw [ih hcs]

theorem letterIdx_idxLetter : ∀ k, k < 26 → letterIdx (idxLetter k) = k := by decide

theorem isUpperAZ_idxLetter : ∀ k, k < 26 → isUpperAZ (idxLetter k) = true := by decide

theorem affine_char_round :
    ∀ a ∈ VALID_A, ∀ b, b < 26 → ∀ x, x < 26 →
      ((((modInverse a 26).getD 0) * (((a * x + b) % 26 : Nat) - (b : Int))) % 26).toNat = x := by
  decide

theorem char_eq_of_toNat_eq {a b : Char} (h : a.toNat = b.toNat) : a = b := by
  apply Char.eq_of_val_eq
  have hv : a.val.toNat = b.val.toNat := h
  exact UInt32.eq_of_val_eq (Fin.ext hv)

theorem toNat_idxLetter : ∀ k, k < 26 → (idxLetter k).toNat = 65 + k := by decide

theorem letterIdx_lt_26 {c : Char} (h : isUpperAZ c = true) : letterIdx c < 26 := by
  unfold isUpperAZ at h
  simp only [Bool.and_eq_true, decide_eq_true_eq] at h
  unfold letterIdx
  omega

theorem idxLetter_letterIdx {c : Char} (h : isUpperAZ c = true) : idxLetter (letterIdx c) = c := by
  have hb : letterIdx c < 26 := letterIdx_lt_26 h
  apply char_eq_of_toNat_eq
  rw [toNat_idxLetter _ hb]
  unfold isUpperAZ at h
  simp only [Bool.and_eq_true, decide_eq_true_eq] at h
  unfold letterIdx
  omega

theorem map_upperChar_of_all {l : List Char} (h : ∀ c ∈ l, isUpperAZ c = true) :
    l.map upperChar = l := by
  induction l with
  | nil => rfl
  | cons c cs ih =>
    simp only [List.map_cons]
    rw [upperChar_of_isUpperAZ (h c (List.mem_cons_self c cs)),
      ih (fun x hx => h x (List.mem_cons_of_mem c hx))]

theorem modInverse_valid_isSome : ∀ a ∈ VALID_A, (modInverse a 26).isSome = true := by decide

/-- Claim C1, Affine part: decrypting an encryption with a valid key
recovers the canonicalized plaintext. -/
theorem affine_roundtrip (a b : Nat) (ha : a ∈ VALID_A) (hb : b < 26) (p : List Char)
    (hp : ∀ c ∈ p, isUpperAZ c = true) :
    affineDecrypt (affineEncrypt p a b) a b = some (canonicalize p) := by
  have hsome := modInverse_valid_isSome a ha
  obtain ⟨aInv, hInv⟩ := Option.isSome_iff_exists.mp hsome
  have hgetD : (modInverse a 26).getD 0 = aInv := by rw [hInv]; rfl
  unfold affineDecrypt
  rw [hInv, Option.map_some', canonicalize_of_all_upper hp]
  congr 1
  unfold affineDecryptRaw affineEncrypt
  rw [map_upperChar_of_all hp]
  have henc_upper : ∀ c ∈ p.map (affineEncryptChar a b), isUpperAZ c = true := by
    intro c hc
    obtain ⟨x, hx, rfl⟩ := List.mem_map.mp hc
    unfold affineEncryptChar
    by_cases hU : isUpperAZ x = true
    · simp only [hU, if_pos]
      exact isUpperAZ_idxLetter _ (Nat.mod_lt _ (by norm_num))
    · simp only [hU, if_neg]
      exact hp x hx
  rw [map_upperChar_of_all henc_upper]
  rw [List.map_map]
  have hid : ∀ c ∈ p, (affineDecryptChar aInv b ∘ affineEncryptChar a b) c = c := by
    intro c hc
    have hU := hp c hc
    have hxlt : letterIdx c < 26 := letterIdx_lt_26 hU
    simp only [Function.comp_apply, affineEncryptChar, hU, if_pos]
    have hmlt : (a * letterIdx c + b) % 26 < 26 := Nat.mod_lt _ (by norm_num)
    unfold affineDecryptChar
    rw [isUpperAZ_idxLetter _ hmlt, if_pos rfl, letterIdx_idxLetter _ hmlt]
    have hr := affine_char_round a ha b hb (letterIdx c) hxlt
    rw [hgetD] at hr
    rw [hr]
    exact idxLetter_letterIdx hU
  calc p.map (affineDecryptChar aInv b ∘ affineEncryptChar a b)
      = p.map id := List.map_congr_left hid
    _ = p := List.map_id p

theorem vig_char_round :
    ∀ x, x < 26 → ∀ k, k < 26 →
      ((((x + k) % 26 : Nat) : Int) - (k : Int)) % 26 = (x : Int) := by decide

theorem vigShift_lt_26 {key : List Char} (hne : key ≠ [])
    (hall : ∀ c ∈ key, isUpperAZ c = true) (ki : Nat) : vigShift key ki < 26 := by
  have hlen : 0 < key.length := List.length_pos.mpr hne
  have hidx : ki % key.length < key.length := Nat.mod_lt _ hlen
  unfold vigShift
  rw [List.getD_eq_getElem key 'A' hidx]
  exact letterIdx_lt_26 (hall _ (List.getElem_mem hidx))

theorem vigGo_roundtrip (key : List Char) (hne : key ≠ [])
    (hall : ∀ c ∈ key, isUpperAZ c = true) :
    ∀ (p : List Char) (ki : Nat), (∀ c ∈ p, isUpperAZ c = true) →
      vigDecGo key ki (vigEncGo key ki p) = p := by
  intro p
  induction p with
  | nil => intro ki _; rfl
  | cons c cs ih =>
    intro ki hp
    have hU := hp c (List.mem_cons_self c cs)
    have hcs : ∀ x ∈ cs, isUpperAZ x = true := fun x hx => hp x (List.mem_cons_of_mem c hx)
    have hs : vigShift key ki < 26 := vigShift_lt_26 hne hall ki
    have hx : letterIdx c < 26 := letterIdx_lt_26 hU
    have hm : (letterIdx c + vigShift key ki) % 26 < 26 := Nat.mod_lt _ (by norm_num)
    unfold vigEncGo
    rw [if_pos hU]
    unfold vigDecGo
    rw [if_pos (isUpperAZ_idxLetter _ hm), letterIdx_idxLetter _ hm]
    rw [vig_char_round _ hx _ hs]
    simp only [Int.toNat_natCast]
    rw [idxLetter_letterIdx hU, ih (ki + 1) hcs]

/-- Claim C1, Vigenère part: decrypting an encryption with a valid key
recovers the canonicalized plaintext. -/
theorem vigenere_roundtrip (key : List Char) (hk : vigenereValidKey key = true)
    (p : List Char) (hp : ∀ c ∈ p, isUpperAZ c = true) :
    vigenereDecrypt (vigenereEncrypt p key) key = canonicalize p := by
  unfold vigenereValidKey at hk
  simp only [Bool.and_eq_true, decide_eq_true_eq, List.all_eq_true] at hk
  obtain ⟨hpos, hallK⟩ := hk
  set K := key.map upperChar with hK
  have hne : K ≠ [] := by
    intro h
    rw [hK] at h
    have := List.map_eq_nil_iff.mp h
    rw [this] at hpos
    simp at hpos
  have hallK2 : ∀ c ∈ K, isUpperAZ c = true := hallK
  rw [canonicalize_of_all_upper hp]
  unfold vigenereEncrypt vigenereDecrypt
  rw [map_upperChar_of_all hp]
  have henc_upper : ∀ c ∈ vigEncGo K 0 p, isUpperAZ c = true := by
    have hgen : ∀ (q : List Char) (ki : Nat), (∀ c ∈ q, isUpperAZ c = true) →
        ∀ c ∈ vigEncGo K ki q, isUpperAZ c = true := by
      intro q
      induction q with
      | nil => intro ki _ c hc; simp [vigEncGo] at hc
      | cons d ds ih =>
        intro ki hq c hc
        have hd := hq d (List.mem_cons_self d ds)
        have hds : ∀ x ∈ ds, isUpperAZ x = true := fun x hx => hq x (List.mem_cons_of_mem d hx)
        unfold vigEncGo at hc
        rw [if_pos hd] at hc
        rcases List.mem_cons.mp hc with h | h
        · subst h
          exact isUpperAZ_idxLetter _ (Nat.mod_lt _ (by norm_num))
        · exact ih (ki + 1) hds c h
    exact hgen p 0 hp
  rw [map_upperChar_of_all henc_upper]
  exact vigGo_roundtrip K hne hallK2 p 0 hp

theorem getD_drop {α : Type} (q : List α) (n m : Nat) (d : α) :
    (q.drop n).getD m d = q.getD (n + m) d := by
  by_cases h : n + m < q.length
  · have h2 : m < (q.drop n).length := by rw [List.length_drop]; omega
    rw [List.getD_eq_getElem _ _ h2, List.getD_eq_getElem _ _ h, List.getElem_drop]
  · have h1 : (q.drop n).length ≤ m := by rw [List.length_drop]; omega
    rw [List.getD_eq_default _ _ h1, List.getD_eq_default _ _ (by omega)]

theorem filterMap_some_of {α β : Type} (l : List α) (f : α → Option β) (g : α → β)
    (h : ∀ a ∈ l, f a = some (g a)) : l.filterMap f = l.map g := by
  induction l with
  | nil => rfl
  | cons a as ih =>
    rw [List.filterMap_cons, h a (List.mem_cons_self a as), List.map_cons,
      ih (fun x hx => h x (List.mem_cons_of_mem a hx))]

theorem lookup_map_pairs (ks : List Nat) (f : Nat → Nat) (g : Nat → List Char) (i : Nat) :
    List.lookup i (ks.map (fun k => (f k, g k))) = (ks.find? (fun k => i == f k)).map g := by
  induction ks with
  | nil => rfl
  | cons k ks ih =>
    rw [List.map_cons, List.lookup_cons, List.find?_cons]
    by_cases h : i == f k
    · simp only [h]; rfl
    · simp only [Bool.not_eq_true] at h
      simp only [h]
      exact ih

theorem flatten_blocks {α : Type} (m : Nat) :
    ∀ (ls : List (List α)), (∀ l ∈ ls, l.length = m) →
      ∀ j, j < ls.length → (ls.flatten.drop (j * m)).take m = ls.getD j [] := by
  intro ls
  induction ls with
  | nil => intro _ j hj; simp at hj
  | cons l ls ih =>
    intro hlen j hj
    have hl : l.length = m := hlen l (List.mem_cons_self l ls)
    have hls : ∀ x ∈ ls, x.length = m := fun x hx => hlen x (List.mem_cons_of_mem l hx)
    cases j with
    | zero =>
      simp only [Nat.zero_mul, List.drop_zero, List.flatten_cons, List.getD_cons_zero]
      rw [← hl, List.take_left]
    | succ j =>
      have harith : (j + 1) * m = l.length + j * m := by rw [hl]; ring
      rw [List.flatten_cons, harith, List.drop_append, List.getD_cons_succ]
      exact ih hls j (by simpa using hj)

theorem rows_flatten {α : Type} (Lc : Nat) (d : α) :
    ∀ (nr : Nat) (q : List α), q.length = nr * Lc →
      (List.range nr).flatMap (fun r => (List.range Lc).map (fun i => q.getD (r * Lc + i) d)) = q := by
  intro nr
  induction nr with
  | zero =>
    intro q hq
    simp only [Nat.zero_mul] at hq
    rw [List.eq_nil_of_length_eq_zero hq]
    rfl
  | succ nr ih =>
    intro q hq
    have hLle : Lc ≤ q.length := by rw [hq]; calc Lc = 1 * Lc := (Nat.one_mul Lc).symm
                                                 _ ≤ (nr + 1) * Lc := Nat.mul_le_mul_right Lc (by omega)
    rw [List.range_succ_eq_map, List.flatMap_cons, List.flatMap_map]
    have hrow0 : (List.range Lc).map (fun i => q.getD (0 * Lc + i) d) = q.take Lc := by
      apply List.ext_getElem
      · rw [List.length_map, List.length_range, List.length_take]; omega
      · intro n h1 h2
        rw [List.getElem_map, List.getElem_range, List.getElem_take]
        have hn : n < Lc := by simpa using h1
        rw [Nat.zero_mul, Nat.zero_add, List.getD_eq_getElem _ _ (by omega)]
    have hrest : (List.range nr).flatMap (fun r => (List.range Lc).map (fun i => q.getD (Nat.succ r * Lc + i) d))
        = q.drop Lc := by
      have hdq : (q.drop Lc).length = nr * Lc := by rw [List.length_drop, hq]; ring_nf; omega
      calc (List.range nr).flatMap (fun r => (List.range Lc).map (fun i => q.getD (Nat.succ r * Lc + i) d))
          = (List.range nr).flatMap (fun r => (List.range Lc).map (fun i => (q.drop Lc).getD (r * Lc + i) d)) := by
            apply List.flatMap_congr
            intro r _
            apply List.map_congr_left
            intro i _
            rw [getD_drop]
            have harith : Nat.succ r * Lc + i = Lc + (r * Lc + i) := by
              rw [Nat.succ_mul]; ring
            rw [harith]
        _ = q.drop Lc := ih (q.drop Lc) hdq
    rw [hrow0, hrest, List.take_append_drop]

theorem columnarPadLen_mod (L n : Nat) (h : 1 ≤ L) : (n + columnarPadLen L n) % L = 0 := by
  unfold columnarPadLen
  by_cases hz : n % L = 0
  · rw [hz]
    simp [Nat.mod_self, Nat.add_mod, hz]
  · have h1 : n % L < L := Nat.mod_lt _ (by omega)
    have h2 : (L - n % L) % L = L - n % L := Nat.mod_eq_of_lt (by omega)
    have h3 : n % L + (L - n % L) = L := by omega
    rw [h2, Nat.add_mod, h2, h3, Nat.mod_self]

theorem readColsAux_const (ct : List Char) (order : List Nat) (lens : List Nat) (NR : Nat) :
    ∀ (cnt s idx : Nat),
      (∀ k, s ≤ k → k < s + cnt → lens.getD (order.indexOf (k + 1)) 0 = NR) →
      columnarReadColsAux ct order lens (List.range' s cnt) idx
        = (List.range' s cnt).map
            (fun k => (order.indexOf (k + 1), (ct.drop (idx + (k - s) * NR)).take NR)) := by
  intro cnt
  induction cnt with
  | zero => intro s idx _; rfl
  | succ cnt ih =>
    intro s idx hk
    rw [List.range'_succ]
    show (order.indexOf (s + 1), (ct.drop idx).take (lens.getD (order.indexOf (s + 1)) 0))
        :: columnarReadColsAux ct order lens (List.range' (s + 1) cnt)
             (idx + lens.getD (order.indexOf (s + 1)) 0) = _
    rw [hk s (Nat.le_refl s) (by omega), List.map_cons]
    have hhead : (ct.drop (idx + (s - s) * NR)).take NR = (ct.drop idx).take NR := by
      rw [Nat.sub_self, Nat.zero_mul, Nat.add_zero]
    rw [hhead]
    congr 1
    rw [ih (s + 1) (idx + NR) (fun k h1 h2 => hk k (by omega) (by omega))]
    apply List.map_congr_left
    intro k hkmem
    have hks : s + 1 ≤ k := (List.mem_range'_1.mp hkmem).1
    have e1 : (k - s) * NR = (k - s - 1) * NR + NR := by
      obtain ⟨t, ht⟩ : ∃ t, k - s = t + 1 := ⟨k - s - 1, by omega⟩
      have ht2 : k - s - 1 = t := by omega
      rw [ht2, ht, Nat.succ_mul]
    have e2 : k - (s + 1) = k - s - 1 := by omega
    rw [e2, e1]
    have e3 : idx + NR + (k - s - 1) * NR = idx + ((k - s - 1) * NR + NR) := by ring
    rw [e3]

/-- Claim C1, Columnar part: decrypting an encryption with a valid ordering
key recovers the canonicalized plaintext followed by the `'X'` padding. -/
theorem columnar_roundtrip (order : List Nat) (hne : order ≠ [])
    (hperm : order.Perm (List.range' 1 order.length))
    (p : List Char) (hp : ∀ c ∈ p, isUpperAZ c = true) :
    columnarDecryptWithOrder (columnarEncryptWithOrder p order) order =
      canonicalize p ++ List.replicate (columnarPadLen order.length p.length) 'X' := by
  have hL1 : 1 ≤ order.length := List.length_pos.mpr hne
  set L := order.length with hLdef
  set P : List Char := p ++ List.replicate (columnarPadLen L p.length) 'X' with hPdef
  have hPup : ∀ c ∈ P, isUpperAZ c = true := by
    intro c hc
    rcases List.mem_append.mp hc with h | h
    · exact hp c h
    · rw [List.eq_of_mem_replicate h]; rfl
  have hmod : P.length % L = 0 := by
    rw [hPdef, List.length_append, List.length_replicate]
    exact columnarPadLen_mod L p.length hL1
  set NR : Nat := P.length / L with hNRdef
  have hNR : P.length = NR * L := (Nat.div_mul_cancel (Nat.dvd_of_mod_eq_zero hmod)).symm
  have hmem : ∀ k, k < L → (k + 1) ∈ order := by
    intro k hk
    exact hperm.mem_iff.mpr (List.mem_range'_1.mpr ⟨by omega, by omega⟩)
  have hpos_lt : ∀ k, k < L → order.indexOf (k + 1) < L := by
    intro k hk
    exact List.indexOf_lt_length.mpr (hmem k hk)
  have hnd : order.Nodup := hperm.nodup_iff.mpr (List.nodup_range' 1 L)
  -- the encryption output
  have hEeq : columnarEncryptWithOrder p order
      = (List.range L).flatMap (fun k =>
          (List.range NR).map (fun r => P.getD (r * L + order.indexOf (k + 1)) 'X')) := by
    show (List.range L).flatMap _ = _
    rw [map_upperChar_of_all hp]
  set E : List Char := (List.range L).flatMap (fun k =>
    (List.range NR).map (fun r => P.getD (r * L + order.indexOf (k + 1)) 'X')) with hEdef
  have hE_blocks : E = ((List.range L).map (fun k =>
      (List.range NR).map (fun r => P.getD (r * L + order.indexOf (k + 1)) 'X'))).flatten := by
    rw [hEdef, List.flatMap_def]
  have hE_all : ∀ l ∈ (List.range L).map (fun k =>
      (List.range NR).map (fun r => P.getD (r * L + order.indexOf (k + 1)) 'X')), l.length = NR := by
    intro l hl
    obtain ⟨k, _, rfl⟩ := List.mem_map.mp hl
    rw [List.length_map, List.length_range]
  have hE_len : E.length = L * NR := by
    rw [hE_blocks, List.length_flatten, List.map_map]
    have : ((List.range L).map (List.length ∘ fun k =>
        (List.range NR).map (fun r => P.getD (r * L + order.indexOf (k + 1)) 'X')))
        = (List.range L).map (fun _ => NR) := by
      apply List.map_congr_left
      intro k _
      simp [List.length_map, List.length_range]
    rw [this, List.map_const', List.sum_replicate, List.length_range, smul_eq_mul]
  have hE_upper : ∀ c ∈ E, isUpperAZ c = true := by
    intro c hc
    rw [hEdef] at hc
    obtain ⟨k, _, hck⟩ := List.mem_flatMap.mp hc
    obtain ⟨r, _, rfl⟩ := List.mem_map.mp hck
    by_cases hidx : r * L + order.indexOf (k + 1) < P.length
    · rw [List.getD_eq_getElem _ _ hidx]
      exact hPup _ (List.getElem_mem hidx)
    · rw [List.getD_eq_default _ _ (by omega)]; rfl
  rw [hEeq, canonicalize_of_all_upper hp, ← hPdef]
  -- now the decryption side
  show columnarDecryptWithOrder E order = P
  unfold columnarDecryptWithOrder
  rw [map_upperChar_of_all hE_upper]
  have hn : E.length = L * NR := hE_len
  have hnmod : E.length % L = 0 := by rw [hn, Nat.mul_mod_right]
  have hnum : (E.length + L - 1) / L = NR := by
    rw [hn]
    have e1 : L * NR + L - 1 = (L - 1) + L * NR := by
      have h2 : 1 ≤ L := hL1
      generalize L * NR = m
      omega
    rw [e1, Nat.add_mul_div_left _ _ (by omega : 0 < L), Nat.div_eq_of_lt (by omega), Nat.zero_add]
  show (List.range ((E.length + L - 1) / L)).flatMap (fun r =>
      (List.range L).filterMap (fun i =>
        ((List.lookup i (columnarReadColsAux E order
            (columnarColLens order ((E.length + L - 1) / L)
              (if E.length % L = 0 then L else E.length % L))
            (List.range L) 0)).getD [])[r]?)) = P
  rw [hnum, hnmod]
  have hif : (if (0 : Nat) = 0 then L else (0 : Nat)) = L := by norm_num
  rw [hif]
  -- column lengths are all NR
  have hlens : columnarColLens order NR L = List.replicate L NR := by
    unfold columnarColLens
    have h1 : ∀ o ∈ order, (if o ≤ L then NR else NR - 1) = NR := by
      intro o ho
      have := List.mem_range'_1.mp (hperm.mem_iff.mp ho)
      rw [if_pos (by omega)]
    calc order.map (fun o => if o ≤ L then NR else NR - 1)
        = order.map (fun _ => NR) := List.map_congr_left h1
      _ = List.replicate order.length NR := List.map_const' order NR
  have hlens_getD : ∀ j, j < L → (columnarColLens order NR L).getD j 0 = NR := by
    intro j hj
    rw [hlens, List.getD_eq_getElem _ _ (by rw [List.length_replicate]; exact hj),
      List.getElem_replicate]
  -- the slicing loop reconstructs the columns
  have hcols : columnarReadColsAux E order (columnarColLens order NR L) (List.range L) 0
      = (List.range L).map (fun k => (order.indexOf (k + 1),
          (List.range NR).map (fun r => P.getD (r * L + order.indexOf (k + 1)) 'X'))) := by
    rw [List.range_eq_range']
    rw [readColsAux_const E order (columnarColLens order NR L) NR L 0 0
      (fun k h1 h2 => hlens_getD (order.indexOf (k + 1)) (hpos_lt k (by omega)))]
    apply List.map_congr_left
    intro k hkmem
    have hk : k < L := by
      have := List.mem_range'_1.mp hkmem
      omega
    congr 1
    rw [Nat.sub_zero, Nat.zero_add]
    have hblocks := flatten_blocks NR ((List.range L).map (fun k =>
      (List.range NR).map (fun r => P.getD (r * L + order.indexOf (k + 1)) 'X'))) hE_all k
      (by rw [List.length_map, List.length_range]; exact hk)
    rw [← hE_blocks] at hblocks
    rw [hblocks, List.getD_eq_getElem _ _ (by rw [List.length_map, List.length_range]; exact hk),
      List.getElem_map, List.getElem_range]
  rw [hcols]
  -- looking up column i yields column i
  have hlookup : ∀ i, i < L →
      List.lookup i ((List.range L).map (fun k => (order.indexOf (k + 1),
          (List.range NR).map (fun r => P.getD (r * L + order.indexOf (k + 1)) 'X'))))
        = some ((List.range NR).map (fun r => P.getD (r * L + i) 'X')) := by
    intro i hi
    rw [lookup_map_pairs (List.range L) (fun k => order.indexOf (k + 1))
      (fun k => (List.range NR).map (fun r => P.getD (r * L + order.indexOf (k + 1)) 'X')) i]
    have hiL : i < order.length := hi
    have hoi := List.mem_range'_1.mp (hperm.mem_iff.mp (List.getElem_mem hiL))
    have hex : ∃ k ∈ List.range L, (i == order.indexOf (k + 1)) = true := by
      refine ⟨order[i] - 1, List.mem_range.mpr (by omega), ?_⟩
      have e1 : order[i] - 1 + 1 = order[i] := by omega
      rw [e1]
      have hlt : order.indexOf order[i] < order.length :=
        List.indexOf_lt_length.mpr (List.getElem_mem hiL)
      have hgd : order[order.indexOf order[i]] = order[i] := List.getElem_indexOf hlt
      have : order.indexOf order[i] = i := (hnd.getElem_inj_iff).mp hgd
      rw [this]
      exact beq_self_eq_true i
    have hsome := List.find?_isSome.mpr hex
    cases hfind : List.find? (fun k => i == order.indexOf (k + 1)) (List.range L) with
    | none => rw [hfind] at hsome; simp at hsome
    | some k1 =>
      have hk1 : i = order.indexOf (k1 + 1) := by
        have := List.find?_some hfind
        exact eq_of_beq this
      rw [Option.map_some']
      rw [← hk1]
  -- the row-wise read reconstructs the padded plaintext
  have hfinal : (List.range NR).flatMap (fun r => (List.range L).filterMap (fun i =>
      ((( (List.range L).map (fun k => (order.indexOf (k + 1),
          (List.range NR).map (fun rr => P.getD (rr * L + order.indexOf (k + 1)) 'X')))).lookup i).getD [])[r]?))
      = P := by
    have hrow : ∀ r ∈ List.range NR, (List.range L).filterMap (fun i =>
        ((( (List.range L).map (fun k => (order.indexOf (k + 1),
            (List.range NR).map (fun rr => P.getD (rr * L + order.indexOf (k + 1)) 'X')))).lookup i).getD [])[r]?)
        = (List.range L).map (fun i => P.getD (r * L + i) 'X') := by
      intro r hr
      have hrNR : r < NR := List.mem_range.mp hr
      apply filterMap_some_of
      intro i hiL
      have hi : i < L := List.mem_range.mp hiL
      rw [hlookup i hi]
      show ((List.range NR).map (fun rr => P.getD (rr * L + i) 'X'))[r]? = _
      rw [List.getElem?_eq_getElem (by rw [List.length_map, List.length_range]; exact hrNR)]
      rw [List.getElem_map, List.getElem_range]
    calc (List.range NR).flatMap (fun r => (List.range L).filterMap (fun i =>
          ((( (List.range L).map (fun k => (order.indexOf (k + 1),
              (List.range NR).map (fun rr => P.getD (rr * L + order.indexOf (k + 1)) 'X')))).lookup i).getD [])[r]?))
        = (List.range NR).flatMap (fun r => (List.range L).map (fun i => P.getD (r * L + i) 'X')) :=
          List.flatMap_congr hrow
      _ = P := rows_flatten L 'X' NR P (by rw [hNR])
  exact hfinal

theorem REVERSED_getD : ∀ k, k < 26 → REVERSED.getD k 'A' = idxLetter (25 - k) := by decide

theorem atbash_char_round {c : Char} (h : isUpperAZ c = true) : atbashChar (atbashChar c) = c := by
  have hx : letterIdx c < 26 := letterIdx_lt_26 h
  unfold atbashChar
  rw [if_pos h, REVERSED_getD _ hx]
  have h25 : 25 - letterIdx c < 26 := by omega
  rw [if_pos (isUpperAZ_idxLetter _ h25), letterIdx_idxLetter _ h25, REVERSED_getD _ (by omega)]
  have e : 25 - (25 - letterIdx c) = letterIdx c := by omega
  rw [e]
  exact idxLetter_letterIdx h

theorem rot13_idx_round : ∀ x, x < 26 → (((x + 13) % 26) + 13) % 26 = x := by decide

theorem rot13_char_round {c : Char} (h : isUpperAZ c = true) : rot13Char (rot13Char c) = c := by
  have hx : letterIdx c < 26 := letterIdx_lt_26 h
  unfold rot13Char
  rw [if_pos h]
  have hm : (letterIdx c + 13) % 26 < 26 := Nat.mod_lt _ (by norm_num)
  rw [if_pos (isUpperAZ_idxLetter _ hm), letterIdx_idxLetter _ hm, rot13_idx_round _ hx]
  exact idxLetter_letterIdx h

theorem beaufort_idx_round :
    ∀ (k : Nat), k < 26 → ∀ (x : Nat), x < 26 →
      (((k : Int) - ((((k : Int) - (x : Int)) % 26).toNat : Int)) % 26).toNat = x := by decide

theorem beaufort_idx_lt :
    ∀ (k : Nat), k < 26 → ∀ (x : Nat), x < 26 →
      (((k : Int) - (x : Int)) % 26).toNat < 26 := by decide

theorem beaufortGo_cons_upper (key : List Char) (ki : Nat) {c : Char}
    (h : isUpperAZ c = true) (cs : List Char) :
    beaufortGo key ki (c :: cs)
      = idxLetter ((((vigShift key ki) : Int) - (letterIdx c : Int)) % 26).toNat
          :: beaufortGo key (ki + 1) cs := by
  conv_lhs => unfold beaufortGo
  rw [if_pos h]

theorem beaufortGo_roundtrip (key : List Char) (hne : key ≠ [])
    (hall : ∀ c ∈ key, isUpperAZ c = true) :
    ∀ (p : List Char) (ki : Nat), (∀ c ∈ p, isUpperAZ c = true) →
      beaufortGo key ki (beaufortGo key ki p) = p := by
  intro p
  induction p with
  | nil => intro ki _; rfl
  | cons c cs ih =>
    intro ki hp
    have hU := hp c (List.mem_cons_self c cs)
    have hcs : ∀ x ∈ cs, isUpperAZ x = true := fun x hx => hp x (List.mem_cons_of_mem c hx)
    have hs : vigShift key ki < 26 := vigShift_lt_26 hne hall ki
    have hx : letterIdx c < 26 := letterIdx_lt_26 hU
    have hy : (((vigShift key ki : Int) - (letterIdx c : Int)) % 26).toNat < 26 :=
      beaufort_idx_lt _ hs _ hx
    rw [beaufortGo_cons_upper key ki hU cs,
      beaufortGo_cons_upper key ki (isUpperAZ_idxLetter _ hy) _,
      letterIdx_idxLetter _ hy, beaufort_idx_round _ hs _ hx,
      idxLetter_letterIdx hU, ih (ki + 1) hcs]

/-- Claim C4, Atbash part. -/
theorem atbash_self_inverse (p : List Char) (hp : ∀ c ∈ p, isUpperAZ c = true) :
    atbashTransform (atbashTransform p) = canonicalize p := by
  rw [canonicalize_of_all_upper hp]
  unfold atbashTransform
  rw [map_upperChar_of_all hp]
  have hall : ∀ c ∈ p.map atbashChar, isUpperAZ c = true := by
    intro c hc
    obtain ⟨x, hx, rfl⟩ := List.mem_map.mp hc
    unfold atbashChar
    by_cases hU : isUpperAZ x = true
    · rw [if_pos hU, REVERSED_getD _ (letterIdx_lt_26 hU)]
      exact isUpperAZ_idxLetter _ (by omega)
    · rw [if_neg (by simpa using hU)]
      exact hp x hx
  rw [map_upperChar_of_all hall, List.map_map]
  have : ∀ c ∈ p, (atbashChar ∘ atbashChar) c = c :=
    fun c hc => atbash_char_round (hp c hc)
  calc p.map (atbashChar ∘ atbashChar) = p.map id := List.map_congr_left this
    _ = p := List.map_id p

/-- Claim C4, ROT13 part. -/
theorem rot13_self_inverse (p : List Char) (hp : ∀ c ∈ p, isUpperAZ c = true) :
    rot13Transform (rot13Transform p) = canonicalize p := by
  rw [canonicalize_of_all_upper hp]
  unfold rot13Transform
  rw [map_upperChar_of_all hp]
  have hall : ∀ c ∈ p.map rot13Char, isUpperAZ c = true := by
    intro c hc
    obtain ⟨x, hx, rfl⟩ := List.mem_map.mp hc
    unfold rot13Char
    by_cases hU : isUpperAZ x = true
    · rw [if_pos hU]
      exact isUpperAZ_idxLetter _ (Nat.mod_lt _ (by norm_num))
    · rw [if_neg (by simpa using hU)]
      exact hp x hx
  rw [map_upperChar_of_all hall, List.map_map]
  have : ∀ c ∈ p, (rot13Char ∘ rot13Char) c = c :=
    fun c hc => rot13_char_round (hp c hc)
  calc p.map (rot13Char ∘ rot13Char) = p.map id := List.map_congr_left this
    _ = p := List.map_id p

/-- Claim C4, Beaufort part. -/
theorem beaufort_self_inverse (key : List Char) (hk : beaufortValidKey key = true)
    (p : List Char) (hp : ∀ c ∈ p, isUpperAZ c = true) :
    beaufortTransform (beaufortTransform p key) key = canonicalize p := by
  unfold beaufortValidKey at hk
  simp only [Bool.and_eq_true, decide_eq_true_eq, List.all_eq_true] at hk
  obtain ⟨hpos, hallK⟩ := hk
  set K := key.map upperChar with hK
  have hne : K ≠ [] := by
    intro h
    rw [hK] at h
    have := List.map_eq_nil_iff.mp h
    rw [this] at hpos
    simp at hpos
  rw [canonicalize_of_all_upper hp]
  unfold beaufortTransform
  rw [map_upperChar_of_all hp]
  have henc_upper : ∀ c ∈ beaufortGo K 0 p, isUpperAZ c = true := by
    have hgen : ∀ (q : List Char) (ki : Nat), (∀ c ∈ q, isUpperAZ c = true) →
        ∀ c ∈ beaufortGo K ki q, isUpperAZ c = true := by
      intro q
      induction q with
      | nil => intro ki _ c hc; simp [beaufortGo] at hc
      | cons d ds ih =>
        intro ki hq c hc
        have hd := hq d (List.mem_cons_self d ds)
        have hds : ∀ x ∈ ds, isUpperAZ x = true := fun x hx => hq x (List.mem_cons_of_mem d hx)
        unfold beaufortGo at hc
        rw [if_pos hd] at hc
        rcases List.mem_cons.mp hc with h | h
        · subst h
          exact isUpperAZ_idxLetter _
            (beaufort_idx_lt _ (vigShift_lt_26 hne hallK ki) _ (letterIdx_lt_26 hd))
        · exact ih (ki + 1) hds c h
    exact hgen p 0 hp
  rw [map_upperChar_of_all henc_upper]
  exact beaufortGo_roundtrip K hne hallK p 0 hp

/-- C1: for the supported cipher engines — Affine and Vigenère as
representative substitution engines, and the grid-based Columnar engine —
decrypting the encryption of a valid plaintext with a valid key recovers
the canonicalized plaintext, except that Columnar may carry `'X'` padding
at the tail. -/
theorem C1_encrypt_decrypt_roundtrip :
    (∀ a ∈ VALID_A, ∀ (b : Nat), b < 26 → ∀ (p : List Char), (∀ c ∈ p, isUpperAZ c = true) →
        affineDecrypt (affineEncrypt p a b) a b = some (canonicalize p))
    ∧ (∀ (key : List Char), vigenereValidKey key = true →
        ∀ (p : List Char), (∀ c ∈ p, isUpperAZ c = true) →
          vigenereDecrypt (vigenereEncrypt p key) key = canonicalize p)
    ∧ (∀ (order : List Nat), order ≠ [] → order.Perm (List.range' 1 order.length) →
        ∀ (p : List Char), (∀ c ∈ p, isUpperAZ c = true) →
          columnarDecryptWithOrder (columnarEncryptWithOrder p order) order
            = canonicalize p ++ List.replicate (columnarPadLen order.length p.length) 'X') :=
  ⟨fun a ha b hb p hp => affine_roundtrip a b ha hb p hp,
   fun key hk p hp => vigenere_roundtrip key hk p hp,
   fun order hne hperm p hp => columnar_roundtrip order hne hperm p hp⟩

/-- Witness for C1 at concrete inputs. -/
theorem C1_encrypt_decrypt_roundtrip_witness :
    affineDecrypt (affineEncrypt ("HELLO".toList) 5 8) 5 8 = some (canonicalize ("HELLO".toList))
    ∧ vigenereDecrypt (vigenereEncrypt ("ATTACKATDAWN".toList) ("LEMON".toList)) ("LEMON".toList)
        = canonicalize ("ATTACKATDAWN".toList)
    ∧ columnarDecryptWithOrder
        (columnarEncryptWithOrder ("WEAREDISCOVERED".toList) [3, 1, 2]) [3, 1, 2]
        = canonicalize ("WEAREDISCOVERED".toList)
          ++ List.replicate (columnarPadLen ([3, 1, 2] : List Nat).length ("WEAREDISCOVERED".toList).length) 'X' :=
  ⟨C1_encrypt_decrypt_roundtrip.1 5 (by decide) 8 (by decide) _ (by decide),
   C1_encrypt_decrypt_roundtrip.2.1 ("LEMON".toList) (by decide) _ (by decide),
   C1_encrypt_decrypt_roundtrip.2.2 [3, 1, 2] (by decide) (by decide) _ (by decide)⟩

/-- C4: Atbash, ROT13 and Beaufort are self-inverse — applying the engine's
transform twice (with the same alphabetic key, for Beaufort) yields the
canonicalized plaintext. -/
theorem C4_self_inverse :
    (∀ (p : List Char), (∀ c ∈ p, isUpperAZ c = true) →
        atbashTransform (atbashTransform p) = canonicalize p)
    ∧ (∀ (p : List Char), (∀ c ∈ p, isUpperAZ c = true) →
        rot13Transform (rot13Transform p) = canonicalize p)
    ∧ (∀ (key : List Char), beaufortValidKey key = true →
        ∀ (p : List Char), (∀ c ∈ p, isUpperAZ c = true) →
          beaufortTransform (beaufortTransform p key) key = canonicalize p) :=
  ⟨fun p hp => atbash_self_inverse p hp,
   fun p hp => rot13_self_inverse p hp,
   fun key hk p hp => beaufort_self_inverse key hk p hp⟩

/-- Witness for C4 at concrete inputs. -/
theorem C4_self_inverse_witness :
    atbashTransform (atbashTransform ("WICKED".toList)) = canonicalize ("WICKED".toList)
    ∧ rot13Transform (rot13Transform ("WICKED".toList)) = canonicalize ("WICKED".toList)
    ∧ beaufortTransform (beaufortTransform ("WICKED".toList) ("FORTUNE".toList)) ("FORTUNE".toList)
        = canonicalize ("WICKED".toList) :=
  ⟨C4_self_inverse.1 _ (by decide),
   C4_self_inverse.2.1 _ (by decide),
   C4_self_inverse.2.2 ("FORTUNE".toList) (by decide) _ (by decide)⟩

theorem lookup_map_self {α β : Type} [BEq α] [LawfulBEq α] (ks : List α) (g : α → β) (i : α)
    (h : i ∈ ks) : List.lookup i (ks.map (fun k => (k, g k))) = some (g i) := by
  induction ks with
  | nil => simp at h
  | cons k ks ih =>
    rw [List.map_cons, List.lookup_cons]
    by_cases hik : i == k
    · simp only [hik]
      have : i = k := eq_of_beq hik
      rw [this]
    · simp only [Bool.not_eq_true] at hik
      simp only [hik]
      rcases List.mem_cons.mp h with h1 | h1
      · exfalso
        rw [h1] at hik
        simp at hik
      · exact ih h1

/-- C3: for non-empty canonicalized plaintext, the scorer's per-language
combined score equals `chi_squared − 50·bigram_ratio − 100·word_hit_ratio`
(computed by `chiSquared`, `bigramScore`, `wordScore`). -/
theorem C3_scorer_combined_formula (plaintext : List Char) (ct key method : String)
    (h : canonicalize plaintext ≠ []) :
    ∀ lang ∈ SCORER_LANGS,
      (scoreCandidate plaintext ct key method).all_scores.lookup lang
        = some { language := lang,
                 chi_squared := chiSquared (canonicalize plaintext) lang,
                 bigram_score := bigramScore (canonicalize plaintext) lang,
                 word_score := wordScore (canonicalize plaintext) lang,
                 combined_score := chiSquared (canonicalize plaintext) lang
                   - 50 * bigramScore (canonicalize plaintext) lang
                   - 100 * wordScore (canonicalize plaintext) lang } := by
  intro lang hlang
  have hsc : (scoreCandidate plaintext ct key method).all_scores
      = SCORER_LANGS.map (fun l => (l, scoreOne (canonicalize plaintext) l)) := by
    unfold scoreCandidate
    rw [if_neg h]
  rw [hsc, lookup_map_self SCORER_LANGS _ lang hlang]
  simp only [scoreOne]
  have hcomb : chiSquared (canonicalize plaintext) lang
        - bigramScore (canonicalize plaintext) lang * 50
        - wordScore (canonicalize plaintext) lang * 100
      = chiSquared (canonicalize plaintext) lang
        - 50 * bigramScore (canonicalize plaintext) lang
        - 100 * wordScore (canonicalize plaintext) lang := by ring
  rw [hcomb]

/-- Witness for C3 at a concrete candidate. -/
theorem C3_scorer_combined_formula_witness :
    canonicalize ("HELLO".toList) ≠ []
    ∧ (scoreCandidate ("HELLO".toList) "caesar" "7" "brute_force").all_scores.lookup "english"
        = some { language := "english",
                 chi_squared := chiSquared (canonicalize ("HELLO".toList)) "english",
                 bigram_score := bigramScore (canonicalize ("HELLO".toList)) "english",
                 word_score := wordScore (canonicalize ("HELLO".toList)) "english",
                 combined_score := chiSquared (canonicalize ("HELLO".toList)) "english"
                   - 50 * bigramScore (canonicalize ("HELLO".toList)) "english"
                   - 100 * wordScore (canonicalize ("HELLO".toList)) "english" } :=
  ⟨by decide,
   C3_scorer_combined_formula ("HELLO".toList) "caesar" "7" "brute_force" (by decide)
     "english" (by decide)⟩

/-- C10: on plaintext with no A–Z letters after canonicalization, the
scorer returns `best_language = "unknown"`, infinite `best_score`, empty
`all_scores`, and zero confidence. -/
theorem C10_empty_text_scoring (plaintext : List Char) (ct key method : String)
    (h : canonicalize plaintext = []) :
    (scoreCandidate plaintext ct key method).best_language = "unknown"
    ∧ (scoreCandidate plaintext ct key method).best_score = ⊤
    ∧ (scoreCandidate plaintext ct key method).all_scores = []
    ∧ (scoreCandidate plaintext ct key method).confidence = 0 := by
  unfold scoreCandidate
  rw [if_pos h]
  exact ⟨rfl, rfl, rfl, rfl⟩

/-- Witness for C10 at a concrete letterless plaintext. -/
theorem C10_empty_text_scoring_witness :
    (scoreCandidate ("123!?".toList) "caesar" "7" "brute_force").best_language = "unknown"
    ∧ (scoreCandidate ("123!?".toList) "caesar" "7" "brute_force").best_score = ⊤
    ∧ (scoreCandidate ("123!?".toList) "caesar" "7" "brute_force").all_scores = []
    ∧ (scoreCandidate ("123!?".toList) "caesar" "7" "brute_force").confidence = 0 :=
  C10_empty_text_scoring ("123!?".toList) "caesar" "7" "brute_force" (by decide)

theorem quickReject_filterPass (cand : ScoredCandidate)
    (h : quickReject cand.plaintext = true) : filterPass cand = false := by
  unfold quickReject at h
  unfold filterPass
  by_cases h0 : canonicalize cand.plaintext = []
  · rw [if_pos h0]
  · rw [if_neg h0]
    rw [if_neg h0] at h
    by_cases h1 : ((vowelCount (canonicalize cand.plaintext) : ℚ)
        / ((canonicalize cand.plaintext).length : ℚ)) < 5/100
    · rw [if_pos h1]
    · rw [if_neg h1]
      rw [if_neg h1] at h
      by_cases h2 : hasConsecutiveSame (canonicalize cand.plaintext) (4 + 1) = true
      · rw [if_pos h2]
      · rw [if_neg h2] at h
        exact absurd h (by simp)

theorem filterPass_of_mem_passed (cands : List ScoredCandidate) (n : Nat)
    {c : ScoredCandidate} (h : c ∈ (filterCandidates cands n).passed) :
    filterPass c = true := by
  unfold filterCandidates at h
  have h1 : c ∈ (cands.filter filterPass).mergeSort
      (fun a b => decide (a.best_score ≤ b.best_score)) :=
    List.mem_of_mem_take h
  have h2 : c ∈ cands.filter filterPass :=
    ((List.mergeSort_perm (cands.filter filterPass) _).mem_iff).mp h1
  exact (List.mem_filter.mp h2).2

/-- C6: if `quick_reject` rejects a plaintext, the full filter excludes
every scored candidate carrying that plaintext. -/
theorem C6_quick_reject_implies_filter (plaintext : List Char)
    (h : quickReject plaintext = true) :
    ∀ (cands : List ScoredCandidate) (n : Nat) (c : ScoredCandidate),
      c.plaintext = plaintext → c ∉ (filterCandidates cands n).passed := by
  intro cands n c hcp hmem
  have hpass : filterPass c = true := filterPass_of_mem_passed cands n hmem
  have hfail : filterPass c = false := quickReject_filterPass c (by rw [hcp]; exact h)
  rw [hpass] at hfail
  exact absurd hfail (by simp)

/-- Witness for C6: `"ZZZZZZZZZZ"` trips the quick-reject checks (no
vowels, and a 10-letter run) and is excluded from any candidate list. -/
theorem C6_quick_reject_implies_filter_witness :
    quickReject ("ZZZZZZZZZZ".toList) = true
    ∧ ({ plaintext := "ZZZZZZZZZZ".toList, cipher_type := "caesar", key := "7",
         best_language := "english", best_score := ((100 : ℚ) : WithTop ℚ), all_scores := [],
         confidence := 1/10, method := "brute_force" } : ScoredCandidate)
        ∉ (filterCandidates
            [{ plaintext := "ZZZZZZZZZZ".toList, cipher_type := "caesar", key := "7",
               best_language := "english", best_score := ((100 : ℚ) : WithTop ℚ), all_scores := [],
               confidence := 1/10, method := "brute_force" }] 10).passed := by
  have hq : quickReject ("ZZZZZZZZZZ".toList) = true := by
    unfold quickReject
    rw [if_neg (by decide : ¬ canonicalize ("ZZZZZZZZZZ".toList) = [])]
    rw [if_pos]
    have h1 : vowelCount (canonicalize ("ZZZZZZZZZZ".toList)) = 0 := by decide
    have h2 : (canonicalize ("ZZZZZZZZZZ".toList)).length = 10 := by decide
    rw [h1, h2]
    norm_num
  exact ⟨hq, C6_quick_reject_implies_filter ("ZZZZZZZZZZ".toList) hq _ 10 _ rfl⟩

theorem sortedByBestScore_of_pairwise :
    ∀ {l : List ScoredCandidate},
      List.Pairwise (fun a b => decide (a.best_score ≤ b.best_score) = true) l →
      sortedByBestScore l = true := by
  intro l
  induction l with
  | nil => intro _; rfl
  | cons a rest ih =>
    intro h
    rcases List.pairwise_cons.mp h with ⟨hrel, htail⟩
    cases rest with
    | nil => rfl
    | cons b rest2 =>
      unfold sortedByBestScore
      rw [hrel b (List.mem_cons_self b rest2), ih htail]
      rfl

/-- C5: every candidate returned by the orchestrator's final stage has
passed the filter's hard-rejection checks; at most 10 candidates are
returned, sorted ascending by best combined score, and the best candidate
is the head of that list. -/
theorem C5_orchestrator_emits_only_filtered (raw : List RawCandidate) :
    (orchestrateFinal raw).candidates.all filterPass = true
    ∧ (orchestrateFinal raw).candidates.length ≤ 10
    ∧ sortedByBestScore (orchestrateFinal raw).candidates = true
    ∧ (orchestrateFinal raw).best_candidate = (orchestrateFinal raw).candidates.head? := by
  refine ⟨?_, ?_, ?_, rfl⟩
  · apply List.all_eq_true.mpr
    intro c hc
    exact filterPass_of_mem_passed _ 10 hc
  · show ((_ : List ScoredCandidate).mergeSort _ |>.take 10).length ≤ 10
    exact List.length_take_le 10 _
  · apply sortedByBestScore_of_pairwise
    have htrans : ∀ a b c : ScoredCandidate,
        decide (a.best_score ≤ b.best_score) = true →
        decide (b.best_score ≤ c.best_score) = true →
        decide (a.best_score ≤ c.best_score) = true := by
      intro a b c h1 h2
      simp only [decide_eq_true_eq] at h1 h2 ⊢
      exact le_trans h1 h2
    have htotal : ∀ a b : ScoredCandidate,
        (decide (a.best_score ≤ b.best_score) || decide (b.best_score ≤ a.best_score)) = true := by
      intro a b
      rcases le_total a.best_score b.best_score with h | h
      · simp [h]
      · simp [h]
    have hsorted := List.sorted_mergeSort htrans htotal
      ((raw.map (fun c => scoreCandidate c.plaintext c.cipher_type c.key c.method)).filter filterPass)
    exact List.Pairwise.take hsorted

/-- C7 counterexample (to the claim as stated): with a failing engine in
the tier, the orchestration output — including the only reasoning log in
the result — is identical to the output with no engine at all, so the
failure is NOT logged to the reasoning output. -/
theorem C7_failure_not_logged_counterexample :
    orchestrateWith ["IoC suggests monoalphabetic"] [Except.error "engine crash"]
      = orchestrateWith ["IoC suggests monoalphabetic"] [] := rfl

/-- C7 (amended): an engine failure during a tier is silently discarded —
the remaining engines' results are kept, nothing is logged, and no error
propagates (the orchestration output equals the output without the failing
engine). -/
theorem C7_engine_failure_recovery (reasoning : List String)
    (xs ys : List (Except String (List RawCandidate))) (e : String) :
    runTier (xs ++ Except.error e :: ys) = runTier (xs ++ ys)
    ∧ orchestrateWith reasoning (xs ++ Except.error e :: ys)
        = orchestrateWith reasoning (xs ++ ys) := by
  have hrt : runTier (xs ++ Except.error e :: ys) = runTier (xs ++ ys) := by
    induction xs with
    | nil => rfl
    | cons o rest ih =>
      cases o with
      | ok cs =>
        show cs ++ runTier (rest ++ Except.error e :: ys) = cs ++ runTier (rest ++ ys)
        rw [ih]
      | error msg =>
        show runTier (rest ++ Except.error e :: ys) = runTier (rest ++ ys)
        exact ih
  exact ⟨hrt, by unfold orchestrateWith; rw [hrt]⟩

theorem classifyPrior_lb (ioc : ℚ) : probLB (classifyPrior ioc) := by
  unfold classifyPrior probLB
  split_ifs <;> norm_num

theorem classifyFreqStep_lb (bc : ℚ) {s : ℚ × ℚ × ℚ} (h : probLB s) :
    probLB (classifyFreqStep bc s) := by
  obtain ⟨h1, h2, h3⟩ := h
  unfold classifyFreqStep probLB
  split_ifs with hA hB
  · exact ⟨le_min (by norm_num) (by linarith), h2, le_min (by norm_num) (by linarith)⟩
  · exact ⟨le_min (by norm_num) (by linarith), h2, h3⟩
  · exact ⟨h1, le_min (by norm_num) (by linarith), h3⟩

theorem classifyBigramStep_lb (bg : ℚ) {s : ℚ × ℚ × ℚ} (h : probLB s) :
    probLB (classifyBigramStep bg s) := by
  obtain ⟨h1, h2, h3⟩ := h
  unfold classifyBigramStep probLB
  split_ifs with hA hB
  · exact ⟨h1, h2, le_min (by norm_num) (by linarith)⟩
  · exact ⟨h1, h2, le_max_left _ _⟩
  · exact ⟨h1, h2, h3⟩

theorem classifyKasiskiStep_lb (hk : Bool) {s : ℚ × ℚ × ℚ} (h : probLB s) :
    probLB (classifyKasiskiStep hk s) := by
  obtain ⟨h1, h2, h3⟩ := h
  unfold classifyKasiskiStep probLB
  split_ifs with hA
  · exact ⟨le_max_left _ _, le_min (by norm_num) (by linarith), h3⟩
  · exact ⟨h1, h2, h3⟩

theorem classifyEntropyStep_lb (er : ℚ) {s : ℚ × ℚ × ℚ} (h : probLB s) :
    probLB (classifyEntropyStep er s) := by
  obtain ⟨h1, h2, h3⟩ := h
  unfold classifyEntropyStep probLB
  split_ifs with hA hB
  · exact ⟨h1, le_min (by norm_num) (by linarith), h3⟩
  · exact ⟨le_min (by norm_num) (by linarith), h2, le_min (by norm_num) (by linarith)⟩
  · exact ⟨h1, h2, h3⟩

theorem classifyLong_probs (text : List Char) (fm : String × ℚ) (bg er : ℚ) (kl : List Nat) :
    (classifyLong text fm bg er kl).monoalphabetic
        + (classifyLong text fm bg er kl).polyalphabetic
        + (classifyLong text fm bg er kl).transposition = 1
    ∧ 0 ≤ (classifyLong text fm bg er kl).monoalphabetic
    ∧ 0 ≤ (classifyLong text fm bg er kl).polyalphabetic
    ∧ 0 ≤ (classifyLong text fm bg er kl).transposition := by
  have hlb : probLB (classifyEntropyStep er
      (classifyKasiskiStep (!kl.isEmpty)
        (classifyBigramStep bg (classifyFreqStep fm.2 (classifyPrior (calcIoc text)))))) :=
    classifyEntropyStep_lb er
      (classifyKasiskiStep_lb _ (classifyBigramStep_lb bg (classifyFreqStep_lb fm.2
        (classifyPrior_lb (calcIoc text)))))
  obtain ⟨h1, h2, h3⟩ := hlb
  set s := classifyEntropyStep er
    (classifyKasiskiStep (!kl.isEmpty)
      (classifyBigramStep bg (classifyFreqStep fm.2 (classifyPrior (calcIoc text))))) with hs
  have htot : (0 : ℚ) < s.1 + s.2.1 + s.2.2 := by linarith
  have hm : (classifyLong text fm bg er kl).monoalphabetic = s.1 / (s.1 + s.2.1 + s.2.2) := rfl
  have hp : (classifyLong text fm bg er kl).polyalphabetic = s.2.1 / (s.1 + s.2.1 + s.2.2) := rfl
  have ht : (classifyLong text fm bg er kl).transposition = s.2.2 / (s.1 + s.2.1 + s.2.2) := rfl
  rw [hm, hp, ht]
  refine ⟨?_, ?_, ?_, ?_⟩
  · rw [div_add_div_same, div_add_div_same, div_self (ne_of_gt htot)]
  · exact div_nonneg (by linarith) (le_of_lt htot)
  · exact div_nonneg (by linarith) (le_of_lt htot)
  · exact div_nonneg (by linarith) (le_of_lt htot)

/-- C2 (amended): for texts of canonicalized length at least 20, the three
family probabilities are non-negative and sum exactly to 1; the short-text
path instead returns the flat prior `(0.33, 0.33, 0.33)` — which sums to
`0.99`, not 1 — with confidence `0.1`. -/
theorem C2_family_probabilities (ct : List Char) (fm : String × ℚ) (bg er : ℚ) (kl : List Nat) :
    (20 ≤ (canonicalize ct).length →
      (classify ct fm bg er kl).monoalphabetic + (classify ct fm bg er kl).polyalphabetic
          + (classify ct fm bg er kl).transposition = 1
      ∧ 0 ≤ (classify ct fm bg er kl).monoalphabetic
      ∧ 0 ≤ (classify ct fm bg er kl).polyalphabetic
      ∧ 0 ≤ (classify ct fm bg er kl).transposition)
    ∧ ((canonicalize ct).length < 20 →
      (classify ct fm bg er kl).monoalphabetic = 33/100
      ∧ (classify ct fm bg er kl).polyalphabetic = 33/100
      ∧ (classify ct fm bg er kl).transposition = 33/100
      ∧ (classify ct fm bg er kl).classification_confidence = 1/10) := by
  constructor
  · intro hlen
    have hcl : classify ct fm bg er kl = classifyLong (canonicalize ct) fm bg er kl := by
      unfold classify
      rw [if_neg (by omega)]
    rw [hcl]
    exact classifyLong_probs (canonicalize ct) fm bg er kl
  · intro hlen
    have hcl : classify ct fm bg er kl
        = { monoalphabetic := 33/100, polyalphabetic := 33/100, transposition := 33/100,
            likely_monoalphabetic := [], likely_polyalphabetic := [],
            likely_transposition := [], estimated_key_lengths := [],
            classification_confidence := 1/10 } := by
      unfold classify
      rw [if_pos hlen]
    rw [hcl]
    exact ⟨rfl, rfl, rfl, rfl⟩

/-- Witness for C2 at concrete long and short inputs. -/
theorem C2_family_probabilities_witness :
    ((classify ("THEQUICKBROWNFOXJUMPSOVERTHELAZYDOG".toList) ("english", 9/10) (1/2) (9/10)
        [7]).monoalphabetic
      + (classify ("THEQUICKBROWNFOXJUMPSOVERTHELAZYDOG".toList) ("english", 9/10) (1/2) (9/10)
        [7]).polyalphabetic
      + (classify ("THEQUICKBROWNFOXJUMPSOVERTHELAZYDOG".toList) ("english", 9/10) (1/2) (9/10)
        [7]).transposition = 1)
    ∧ (classify ("HELLO".toList) ("english", 0) 0 0 []).monoalphabetic = 33/100
    ∧ (classify ("HELLO".toList) ("english", 0) 0 0 []).classification_confidence = 1/10 := by
  refine ⟨?_, ?_, ?_⟩
  · exact ((C2_family_probabilities ("THEQUICKBROWNFOXJUMPSOVERTHELAZYDOG".toList)
      ("english", 9/10) (1/2) (9/10) [7]).1 (by decide)).1
  · exact ((C2_family_probabilities ("HELLO".toList) ("english", 0) 0 0 []).2 (by decide)).1
  · exact ((C2_family_probabilities ("HELLO".toList) ("english", 0) 0 0 []).2 (by decide)).2.2.2

/-- C2 counterexample (to the claim as stated): on the short-text path the
probabilities sum to `0.99`, which misses 1 by far more than `1e-6`. -/
theorem C2_short_text_sum_counterexample :
    (classify ("HELLO".toList) ("english", 0) 0 0 []).monoalphabetic
      + (classify ("HELLO".toList) ("english", 0) 0 0 []).polyalphabetic
      + (classify ("HELLO".toList) ("english", 0) 0 0 []).transposition = 99/100
    ∧ (1 : ℚ)/1000000 < |(99/100 : ℚ) - 1| := by
  have hcl : classify ("HELLO".toList) ("english", 0) 0 0 []
      = { monoalphabetic := 33/100, polyalphabetic := 33/100, transposition := 33/100,
          likely_monoalphabetic := [], likely_polyalphabetic := [],
          likely_transposition := [], estimated_key_lengths := [],
          classification_confidence := 1/10 } := by
    unfold classify
    rw [if_pos (by decide)]
  rw [hcl]
  refine ⟨by norm_num, ?_⟩
  have habs : |(99/100 : ℚ) - 1| = 1/100 := by
    rw [abs_sub_comm, abs_of_pos (by norm_num : (0 : ℚ) < 1 - 99/100)]
    norm_num
  rw [habs]
  norm_num

/-- C9 (amended): the likely-monoalphabetic ranking always lists `caesar`
first; `simple_substitution` and `affine` are added exactly when the best
frequency-shape correlation is strictly below 0.8 (not at 0.8 itself);
`atbash` and `rot13` follow. -/
theorem C9_mono_cipher_ranking (ioc : ℚ) (fm : String × ℚ) :
    (rankMonoalphabeticCiphers ioc fm).head? = some "caesar"
    ∧ (fm.2 < 8/10 → rankMonoalphabeticCiphers ioc fm
        = ["caesar", "simple_substitution", "affine", "atbash", "rot13"])
    ∧ (¬ fm.2 < 8/10 → rankMonoalphabeticCiphers ioc fm = ["caesar", "atbash", "rot13"]) := by
  unfold rankMonoalphabeticCiphers
  by_cases h : fm.2 < 8/10
  · rw [if_pos h]
    exact ⟨rfl, fun _ => rfl, fun hc => absurd h hc⟩
  · rw [if_neg h]
    exact ⟨rfl, fun hc => absurd hc h, fun _ => rfl⟩

/-- Witness for C9 at a concrete correlation below the threshold. -/
theorem C9_mono_cipher_ranking_witness :
    (rankMonoalphabeticCiphers (7/100) ("english", 1/2)).head? = some "caesar"
    ∧ rankMonoalphabeticCiphers (7/100) ("english", 1/2)
        = ["caesar", "simple_substitution", "affine", "atbash", "rot13"] :=
  ⟨(C9_mono_cipher_ranking (7/100) ("english", 1/2)).1,
   (C9_mono_cipher_ranking (7/100) ("english", 1/2)).2.1 (by norm_num)⟩

/-- C9 counterexample (to the claim as stated): at correlation exactly
`0.8` the claim's `≤ 0.8` condition holds, but the code's strict `< 0.8`
test fails, so `simple_substitution` is not added. -/
theorem C9_boundary_counterexample :
    (8/10 : ℚ) ≤ 8/10
    ∧ "simple_substitution" ∉ rankMonoalphabeticCiphers (7/100) ("english", 8/10) := by
  constructor
  · exact le_refl _
  · unfold rankMonoalphabeticCiphers
    rw [if_neg (by norm_num : ¬ (8/10 : ℚ) < 8/10)]
    decide

theorem hillClimbOptimize_foldl_isSome (fitness : List Char → ℚ) (ct : List Char) :
    ∀ (l : List (List Char)) (b : List Char),
      (l.foldl
        (fun best k =>
          match best with
          | none => some k
          | some b => if fitness (substDecrypt ct b) < fitness (substDecrypt ct k)
                      then some k else some b)
        (some b)).isSome = true := by
  intro l
  induction l with
  | nil => intro b; rfl
  | cons k ks ih =>
    intro b
    show (ks.foldl _ (if fitness (substDecrypt ct b) < fitness (substDecrypt ct k)
        then some k else some b)).isSome = true
    by_cases h : fitness (substDecrypt ct b) < fitness (substDecrypt ct k)
    · rw [if_pos h]; exact ih k
    · rw [if_neg h]; exact ih b

theorem hillClimbOptimize_isSome (fitness : List Char → ℚ) (ct : List Char)
    (iters restarts : Nat) (streams : List (List (Nat × Nat))) (h : 0 < restarts) :
    (hillClimbOptimize fitness ct iters restarts streams).isSome = true := by
  unfold hillClimbOptimize
  obtain ⟨n, rfl⟩ : ∃ n, restarts = n + 1 := ⟨restarts - 1, by omega⟩
  rw [List.range_succ_eq_map, List.map_cons, List.foldl_cons]
  exact hillClimbOptimize_foldl_isSome fitness ct _ _

/-- C8: the Simple Substitution engine's hill-climbing cryptanalysis
returns exactly one candidate from `attempt_decrypt` (for any ciphertext,
fitness function, iteration budget, proposal streams, and at least one
restart — the engine default is 10). -/
theorem C8_hill_climb_single_candidate (ct : List Char) (fitness : List Char → ℚ)
    (iters restarts : Nat) (streams : List (List (Nat × Nat))) (h : 0 < restarts) :
    (ssAttemptDecrypt ct fitness iters restarts streams).length = 1 := by
  have hsome := hillClimbOptimize_isSome fitness ct iters restarts streams h
  obtain ⟨key, hkey⟩ := Option.isSome_iff_exists.mp hsome
  unfold ssAttemptDecrypt
  rw [hkey]
  rfl

/-- Witness for C8 at a concrete ciphertext and the default-style options. -/
theorem C8_hill_climb_single_candidate_witness :
    (ssAttemptDecrypt ("OLSSV".toList) (fun _ => 0) 5000 10 []).length = 1 :=
  C8_hill_climb_single_candidate ("OLSSV".toList) (fun _ => 0) 5000 10 [] (by decide)
